import Mathlib

/-!
Verification development for the LinguaLens DetectionPipeline
(the aspect-scoring / class-lock variant).

Numbers are modelled as rationals; bounding boxes are (x, y, w, h)
records; the candidate map is an association list in insertion order,
mirroring JavaScript object key iteration for string keys.
-/

/-- Bounding box `(x, y, w, h)` in source-frame pixel coordinates. -/
structure Box where
  x : ℚ
  y : ℚ
  w : ℚ
  h : ℚ
deriving DecidableEq

/-- Intersection-over-union of two axis-aligned boxes, as in `iou(a, b)`. -/
def iou (a b : Box) : ℚ :=
  let x1 := max a.x b.x
  let y1 := max a.y b.y
  let x2 := min (a.x + a.w) (b.x + b.w)
  let y2 := min (a.y + a.h) (b.y + b.h)
  if x2 ≤ x1 ∨ y2 ≤ y1 then 0
  else
    let inter := (x2 - x1) * (y2 - y1)
    inter / (a.w * a.h + b.w * b.h - inter)

/-- Expected height/width window for a class (`ASPECT_HINTS` entries). -/
structure AspectHint where
  min : ℚ
  max : ℚ
  weight : ℚ
deriving DecidableEq

/-- The `ASPECT_HINTS` table of the source. -/
def ASPECT_HINTS : List (String × AspectHint) :=
  [("cell phone", ⟨13/10, 28/10, 25/100⟩),
   ("remote", ⟨22/10, 6, 25/100⟩),
   ("mouse", ⟨5/10, 13/10, 20/100⟩),
   ("bottle", ⟨18/10, 5, 25/100⟩),
   ("cup", ⟨6/10, 16/10, 20/100⟩),
   ("bowl", ⟨3/10, 9/10, 20/100⟩),
   ("vase", ⟨12/10, 35/10, 15/100⟩),
   ("laptop", ⟨5/10, 11/10, 20/100⟩),
   ("tv", ⟨4/10, 9/10, 20/100⟩),
   ("book", ⟨8/10, 18/10, 10/100⟩),
   ("knife", ⟨2, 8, 20/100⟩),
   ("scissors", ⟨8/10, 25/10, 15/100⟩),
   ("keyboard", ⟨15/100, 55/100, 20/100⟩),
   ("hair drier", ⟨6/10, 15/10, 15/100⟩),
   ("fork", ⟨3, 10, 20/100⟩),
   ("spoon", ⟨25/10, 8, 15/100⟩)]

/-- Lookup `ASPECT_HINTS[cls]`. -/
def hintOf (cls : String) : Option AspectHint :=
  (ASPECT_HINTS.find? (fun e => e.1 == cls)).map Prod.snd

/-- Body of `aspectScore` once a hint is present. -/
def aspectScoreWith (hint : AspectHint) (bbox : Box) : ℚ :=
  if bbox.w = 0 then 1/2
  else
    let aspect := bbox.h / bbox.w
    if hint.min ≤ aspect ∧ aspect ≤ hint.max then 1
    else
      let dist :=
        if aspect < hint.min then (hint.min - aspect) / hint.min
        else (aspect - hint.max) / hint.max
      max (3/10) (1 - dist * hint.weight * 3)

/-- Source `aspectScore(cls, bbox)`: multiplier in `[0, 1]`. -/
def aspectScore (cls : String) (bbox : Box) : ℚ :=
  match hintOf cls with
  | none => 1
  | some hint => aspectScoreWith hint bbox

/-- Modelled from the spec text of §4.1 step 1 / §8, for comparison with
the source's `aspectScore` (claim C7): no hint gives 1.0; zero width
gives 0.5; inside `[min, max]` gives 1.0; otherwise the fractional
distance outside the nearer boundary is penalised by `weight·3`,
clamped below at 0.3. -/
def aspectScoreSpec (cls : String) (bbox : Box) : ℚ :=
  match hintOf cls with
  | none => 1
  | some hint =>
    if bbox.w = 0 then 1/2
    else
      let aspect := bbox.h / bbox.w
      if aspect < hint.min then
        max (3/10) (1 - (hint.min - aspect) / hint.min * hint.weight * 3)
      else if hint.max < aspect then
        max (3/10) (1 - (aspect - hint.max) / hint.max * hint.weight * 3)
      else 1

/-- The `CONFUSE_GROUPS` table of the source. -/
def CONFUSE_GROUPS : List (List String) :=
  [["cell phone", "remote", "mouse", "hair drier"],
   ["cup", "bowl", "vase", "bottle"],
   ["knife", "scissors", "fork"],
   ["couch", "bed"],
   ["skateboard", "surfboard"],
   ["laptop", "tv", "book", "keyboard"],
   ["backpack", "handbag", "suitcase"],
   ["car", "truck", "bus"],
   ["dining table", "desk"],
   ["potted plant", "broccoli"]]

/-- Lookup `confuseMap[cls]`, as the index of the group containing `cls`
(group arrays compare by identity in the source, so index equality
is group equality). -/
def groupOf (cls : String) : Option Nat :=
  CONFUSE_GROUPS.findIdx? (fun g => g.contains cls)

/-- A `SIZE_RANGES` window (bounding-box-area / frame-area). -/
structure SizeRange where
  min : ℚ
  max : ℚ
deriving DecidableEq

/-- The external class dictionary (`DICT`) and `SIZE_RANGES` tables live
in `dictionary.js`, outside this repository's filtering core; the
pipeline is parametrised by them. `dictSize` is `DICT[cls].size`. -/
structure SizeTables where
  dictSize : String → Option String
  sizeRanges : String → Option SizeRange

/-- Tables with no size information: every class passes size validation. -/
def TTriv : SizeTables := ⟨fun _ => none, fun _ => none⟩

/-- Source `validateSize(pred, videoArea)`. -/
def validateSize (T : SizeTables) (cls : String) (bbox : Box) (videoArea : ℚ) : Bool :=
  match T.dictSize cls with
  | none => true
  | some sz =>
    let ratio := bbox.w * bbox.h / videoArea
    match T.sizeRanges sz with
    | none => true
    | some range => decide (range.min * (1/2) ≤ ratio ∧ ratio ≤ range.max * 2)

/-- Constant `CONFIRM_FRAMES = 8`. -/
def CONFIRM_FRAMES : ℤ := 8

/-- Constant `NMS_THRESHOLD = 0.35`. -/
def NMS_THRESHOLD : ℚ := 35/100

/-- Constant `CONFUSION_THRESHOLD = 0.3`. -/
def CONFUSION_THRESHOLD : ℚ := 3/10

/-- Constant `DECAY_RATE = 2`. -/
def DECAY_RATE : ℤ := 2

/-- Constant `CLASS_LOCK_FRAMES = 12`. -/
def CLASS_LOCK_FRAMES : ℤ := 12

/-- A raw detection `{class, bbox, score}`. -/
structure RawPred where
  cls : String
  bbox : Box
  score : ℚ
deriving DecidableEq

/-- A scored detection after step 1: `score` is the adjusted score,
`origScore` and `aspectSc` retain the raw score and the multiplier. -/
structure SPred where
  cls : String
  bbox : Box
  score : ℚ
  origScore : ℚ
  aspectSc : ℚ
deriving DecidableEq

/-- Step 1 of `filter`: `{...p, score: p.score * aScore, _origScore: p.score,
_aspectScore: aScore}`. -/
def scoreOne (p : RawPred) : SPred :=
  let a := aspectScore p.cls p.bbox
  ⟨p.cls, p.bbox, p.score * a, p.score, a⟩

/-- The confusion tie-break fit `( _aspectScore || 1.0) * _origScore`. -/
def fit (p : SPred) : ℚ :=
  (if p.aspectSc = 0 then 1 else p.aspectSc) * p.origScore

/-- Stable insertion of `p` into a list sorted descending by `sc`. -/
def insertDescBy {α : Type} (sc : α → ℚ) (p : α) : List α → List α
  | [] => [p]
  | q :: qs => if sc p ≤ sc q then q :: insertDescBy sc p qs else p :: q :: qs

/-- Stable descending sort by `sc`; the unique stable result of the
source's `sort((a, b) => b.score - a.score)`. -/
def sortDescBy {α : Type} (sc : α → ℚ) : List α → List α
  | [] => []
  | p :: ps => insertDescBy sc p (sortDescBy sc ps)

/-- One iteration of step 5 (greedy NMS). -/
def nmsStep (kept : List SPred) (p : SPred) : List SPred :=
  if kept.any (fun k => decide (iou p.bbox k.bbox > NMS_THRESHOLD)) then kept
  else kept ++ [p]

/-- Step 5: greedy NMS over the sorted, filtered detections. -/
def nms (l : List SPred) : List SPred := l.foldl nmsStep []

/-- The scan of step 6 over the already-resolved list: returns `none` when
no same-group overlap was found, otherwise the updated resolved list
(replacing the loser in place when the challenger's fit is higher). -/
def resolveScan (g : Nat) (p : SPred) : List SPred → Option (List SPred)
  | [] => none
  | r :: rs =>
    if groupOf r.cls = some g ∧ iou p.bbox r.bbox > CONFUSION_THRESHOLD then
      some ((if fit p > fit r then p else r) :: rs)
    else (resolveScan g p rs).map (fun l => r :: l)

/-- One iteration of step 6 (confusion group resolution). -/
def resolveStep (resolved : List SPred) (p : SPred) : List SPred :=
  match groupOf p.cls with
  | none => resolved ++ [p]
  | some g =>
    match resolveScan g p resolved with
    | some res => res
    | none => resolved ++ [p]

/-- Step 6 over the whole kept list. -/
def resolveAll (kept : List SPred) : List SPred := kept.foldl resolveStep []

/-- Steps 1–6 of `filter`: the stateless per-frame pipeline producing the
resolved list handed to the candidate tracker. -/
def pipelineResolved (T : SizeTables) (raws : List RawPred) (vw vh : ℚ) : List SPred :=
  let videoArea := vw * vh
  let preds := raws.map scoreOne
  let preds := sortDescBy SPred.score preds
  let preds := preds.filter (fun p => validateSize T p.cls p.bbox videoArea)
  let preds := preds.filter (fun p => decide ((45 : ℚ)/100 ≤ p.score))
  let kept := nms preds
  resolveAll kept

/-- Steps 1-5 of `filter` (through NMS): the kept list that step 6
resolves. -/
def keptOf (T : SizeTables) (raws : List RawPred) (vw vh : ℚ) : List SPred :=
  nms (((sortDescBy SPred.score (raws.map scoreOne)).filter
      (fun p => validateSize T p.cls p.bbox (vw * vh))).filter
    (fun p => decide ((45 : ℚ)/100 ≤ p.score)))

/-- A tracked candidate `{cls, score, frames, bbox}`. -/
structure Cand where
  cls : String
  score : ℚ
  frames : ℤ
  bbox : Box
deriving DecidableEq

/-- A candidate-map key: the source builds the string
`cls_round(x/40)_round(y/40)_Date.now()`; class labels contain no
underscore-digit patterns, so the string is equivalent to this tuple.
`stamp` is the `Date.now()` uniqueness discriminator, threaded in as a
per-call parameter. -/
structure Key where
  cls : String
  bx : ℤ
  byv : ℤ
  stamp : Nat
deriving DecidableEq

/-- JavaScript `Math.round` for finite values: half-up rounding. -/
def jsRound (q : ℚ) : ℤ := ⌊q + 1/2⌋

/-- The candidate map, in insertion order (JavaScript `for...in` visits
non-index string keys in insertion order). -/
abbrev TrackMap := List (Key × Cand)

/-- Lookup `candidates[k]`. -/
def lookupKey : TrackMap → Key → Option Cand
  | [], _ => none
  | (k', c) :: rest, k => if k' = k then some c else lookupKey rest k

/-- Property write `candidates[k] = c`: replaces in place when the key is
present, appends at the end (insertion order) when it is new. -/
def setKey : TrackMap → Key → Cand → TrackMap
  | [], k, c => [(k, c)]
  | (k', c') :: rest, k, c =>
    if k' = k then (k, c) :: rest else (k', c') :: setKey rest k c

/-- The fresh key generated for an unmatched detection. -/
def freshKey (p : SPred) (now : Nat) : Key :=
  ⟨p.cls, jsRound (p.bbox.x / 40), jsRound (p.bbox.y / 40), now⟩

/-- The candidate-matching scan of step 7: walks the map in insertion
order; an exact match (same class, IoU > 0.25) stops the scan; the first
spatial-only match (IoU > 0.4) is recorded along the way. Returns
`(matchedKey, matchedKeyByLocation)`. -/
def scanCands (p : SPred) : TrackMap → Option Key → Option Key × Option Key
  | [], loc => (none, loc)
  | (k, c) :: rest, loc =>
    if c.cls = p.cls ∧ iou c.bbox p.bbox > 1/4 then (some k, loc)
    else
      scanCands p rest
        (if iou c.bbox p.bbox > 2/5 ∧ loc = none then some k else loc)

/-- Mutable state of one pass of step 7. -/
structure TrackState where
  cands : TrackMap
  nowKeys : List Key
  confirmed : List SPred
deriving DecidableEq

/-- Processing of one resolved detection `p` in step 7: exact-match
update, class-lock retention, or creation, followed by the
`frames ≥ CONFIRM_FRAMES` emission check. -/
def trackStep (now : Nat) (st : TrackState) (p : SPred) : TrackState :=
  let scanned := scanCands p st.cands none
  let matchedKey := scanned.1
  let matchedLoc := scanned.2
  let rKey := matchedKey.getD (freshKey p now)
  let nk := rKey :: st.nowKeys
  match lookupKey st.cands rKey with
  | some c =>
    let c' : Cand :=
      { c with frames := c.frames + 1,
               score := c.score * (6/10) + p.score * (4/10),
               bbox := p.bbox }
    { cands := setKey st.cands rKey c',
      nowKeys := nk,
      confirmed :=
        if CONFIRM_FRAMES ≤ c'.frames then st.confirmed ++ [p] else st.confirmed }
  | none =>
    let lockResult : Option TrackState :=
      match matchedKey, matchedLoc with
      | none, some lk =>
        match lookupKey st.cands lk with
        | some existing =>
          if CLASS_LOCK_FRAMES ≤ existing.frames then
            let existingFit := aspectScore existing.cls p.bbox * existing.score
            let newFit := aspectScore p.cls p.bbox * p.score
            if newFit < existingFit * (13/10) then
              let newScore := existing.score * (7/10) + p.origScore * (3/10)
              some
                { cands := setKey st.cands lk
                    { existing with bbox := p.bbox, score := newScore },
                  nowKeys := lk :: nk,
                  confirmed :=
                    if CONFIRM_FRAMES ≤ existing.frames then
                      st.confirmed ++ [{ p with cls := existing.cls, score := newScore }]
                    else st.confirmed }
            else none
          else none
        | none => none
      | _, _ => none
    match lockResult with
    | some st' => st'
    | none =>
      let c : Cand := ⟨p.cls, p.score, 1, p.bbox⟩
      { cands := setKey st.cands rKey c,
        nowKeys := nk,
        confirmed :=
          if CONFIRM_FRAMES ≤ (1 : ℤ) then st.confirmed ++ [p] else st.confirmed }

/-- End-of-call decay: every candidate not marked seen loses `DECAY_RATE`
frames and is evicted when the result is `≤ 0`. -/
def decayAll (nowKeys : List Key) (m : TrackMap) : TrackMap :=
  (m.map (fun kc =>
      if nowKeys.contains kc.1 then kc
      else (kc.1, { kc.2 with frames := kc.2.frames - DECAY_RATE }))).filter
    (fun kc => nowKeys.contains kc.1 || decide (0 < kc.2.frames))

/-- Source `filter(rawPreds, videoWidth, videoHeight)`: the full call, explicit
in the candidate-map state and in the `Date.now()` stamp `now`. Returns
the new candidate map and the confirmed detections. -/
def filterCall (T : SizeTables) (now : Nat) (st : TrackMap)
    (raws : List RawPred) (vw vh : ℚ) : TrackMap × List SPred :=
  let resolved := pipelineResolved T raws vw vh
  let ts := resolved.foldl (trackStep now) ⟨st, [], []⟩
  (decayAll ts.nowKeys ts.cands, ts.confirmed)

/-- Source `reset()`: deletes every key of the candidate map. -/
def reset (_st : TrackMap) : TrackMap := []

/-- Performs `n` consecutive calls feeding the same single raw detection `d`,
starting from state `st0`; call `i` uses stamp `i` (frames are rendered
more than a millisecond apart, so stamps are distinct across calls).
Returns the state and the confirmed output of the `n`-th call. -/
def runFrom (T : SizeTables) (d : RawPred) (vw vh : ℚ) (st0 : TrackMap) :
    Nat → TrackMap × List SPred
  | 0 => (st0, [])
  | n + 1 => filterCall T (n + 1) (runFrom T d vw vh st0 n).1 [d] vw vh

/-- Performs `n` consecutive calls with an empty detection list (nothing matches). -/
def skipCalls (T : SizeTables) (vw vh : ℚ) (m : TrackMap) : Nat → TrackMap
  | 0 => m
  | n + 1 => (filterCall T 0 (skipCalls T vw vh m n) [] vw vh).1

/-- A raw input item as handed by the caller: the bbox may be missing
(`undefined`), as claim C2 considers. -/
structure RawPredO where
  cls : String
  bbox : Option Box
  score : ℚ
deriving DecidableEq

/-- A scored detection whose bbox may still be missing (step 1 does not
read the bbox of a class without a hint). -/
structure SPredO where
  cls : String
  bbox : Option Box
  score : ℚ
  origScore : ℚ
  aspectSc : ℚ
deriving DecidableEq

/-- Guarded semantics of the call: `none` models the TypeError thrown by
reading a field of an `undefined` bbox, which aborts the whole call. -/
def aspectScoreO (cls : String) (bbox : Option Box) : Option ℚ :=
  match hintOf cls with
  | none => some 1
  | some hint =>
    match bbox with
    | none => none
    | some b => some (aspectScoreWith hint b)

/-- Guarded step 1 for one item. -/
def scoreOneO (p : RawPredO) : Option SPredO :=
  match aspectScoreO p.cls p.bbox with
  | none => none
  | some a => some ⟨p.cls, p.bbox, p.score * a, p.score, a⟩

/-- Guarded `map` over a list in evaluation order, aborting at the first error. -/
def mapMO {α β : Type} (f : α → Option β) : List α → Option (List β)
  | [] => some []
  | x :: xs =>
    match f x with
    | none => none
    | some y =>
      match mapMO f xs with
      | none => none
      | some ys => some (y :: ys)

/-- Guarded `validateSize`: the source reads `pred.bbox[2]` before looking
up the range, so a missing bbox throws whenever the class has a size
category. -/
def validateSizeO (T : SizeTables) (cls : String) (bbox : Option Box)
    (videoArea : ℚ) : Option Bool :=
  match T.dictSize cls with
  | none => some true
  | some sz =>
    match bbox with
    | none => none
    | some b =>
      let ratio := b.w * b.h / videoArea
      match T.sizeRanges sz with
      | none => some true
      | some range => some (decide (range.min * (1/2) ≤ ratio ∧ ratio ≤ range.max * 2))

/-- Guarded `filter` over a list in evaluation order, aborting at the first error. -/
def filterMO {α : Type} (f : α → Option Bool) : List α → Option (List α)
  | [] => some []
  | x :: xs =>
    match f x with
    | none => none
    | some b =>
      match filterMO f xs with
      | none => none
      | some rest => some (if b then x :: rest else rest)

/-- Guarded IoU: reading either missing bbox throws. -/
def iouO (a b : Option Box) : Option ℚ :=
  match a, b with
  | some a', some b' => some (iou a' b')
  | _, _ => none

/-- Short-circuiting `any` (the source breaks out of the NMS inner loop
at the first dominating box). -/
def anyMO {α : Type} (f : α → Option Bool) : List α → Option Bool
  | [] => some false
  | x :: xs =>
    match f x with
    | none => none
    | some true => some true
    | some false => anyMO f xs

/-- Guarded NMS iteration. -/
def nmsStepO (kept : Option (List SPredO)) (p : SPredO) : Option (List SPredO) :=
  match kept with
  | none => none
  | some ks =>
    match anyMO (fun k => (iouO p.bbox k.bbox).map (fun i => decide (i > NMS_THRESHOLD))) ks with
    | none => none
    | some true => some ks
    | some false => some (ks ++ [p])

/-- Guarded NMS. -/
def nmsO (l : List SPredO) : Option (List SPredO) := l.foldl nmsStepO (some [])

/-- The fit `( _aspectScore || 1.0) * _origScore` on guarded records (pure). -/
def fitO (p : SPredO) : ℚ :=
  (if p.aspectSc = 0 then 1 else p.aspectSc) * p.origScore

/-- Guarded confusion-resolution scan: outer `none` is an aborting
error, inner `none` means no same-group overlap was found. -/
def resolveScanO (g : Nat) (p : SPredO) : List SPredO → Option (Option (List SPredO))
  | [] => some none
  | r :: rs =>
    if groupOf r.cls = some g then
      match iouO p.bbox r.bbox with
      | none => none
      | some i =>
        if i > CONFUSION_THRESHOLD then
          some (some ((if fitO p > fitO r then p else r) :: rs))
        else (resolveScanO g p rs).map (Option.map (fun l => r :: l))
    else (resolveScanO g p rs).map (Option.map (fun l => r :: l))

/-- Guarded confusion-resolution iteration. -/
def resolveStepO (res : Option (List SPredO)) (p : SPredO) : Option (List SPredO) :=
  match res with
  | none => none
  | some rs =>
    match groupOf p.cls with
    | none => some (rs ++ [p])
    | some g =>
      match resolveScanO g p rs with
      | none => none
      | some none => some (rs ++ [p])
      | some (some rs') => some rs'

/-- Guarded tracker state: stored candidates always hold a real bbox
(creation requires the bbox to have been read successfully). -/
structure TrackStateO where
  cands : TrackMap
  nowKeys : List Key
  confirmed : List SPredO
deriving DecidableEq

/-- Guarded candidate scan: any iteration computes `iou(c.bbox, p.bbox)`,
so a missing bbox throws as soon as the map is non-empty. -/
def scanCandsO (p : SPredO) : TrackMap → Option Key → Option (Option Key × Option Key)
  | [], loc => some (none, loc)
  | (k, c) :: rest, loc =>
    match p.bbox with
    | none => none
    | some pb =>
      if c.cls = p.cls ∧ iou c.bbox pb > 1/4 then some (some k, loc)
      else
        scanCandsO p rest
          (if iou c.bbox pb > 2/5 ∧ loc = none then some k else loc)

/-- Guarded step-7 processing of one resolved detection. -/
def trackStepO (now : Nat) (st : Option TrackStateO) (p : SPredO) : Option TrackStateO :=
  match st with
  | none => none
  | some s =>
    match scanCandsO p s.cands none with
    | none => none
    | some scanned =>
      let matchedKey := scanned.1
      let matchedLoc := scanned.2
      let rKeyO : Option Key :=
        match matchedKey with
        | some k => some k
        | none =>
          match p.bbox with
          | none => none
          | some pb => some ⟨p.cls, jsRound (pb.x / 40), jsRound (pb.y / 40), now⟩
      match rKeyO with
      | none => none
      | some rKey =>
        match p.bbox with
        | none => none
        | some pb =>
          let nk := rKey :: s.nowKeys
          match lookupKey s.cands rKey with
          | some c =>
            let c' : Cand :=
              { c with frames := c.frames + 1,
                       score := c.score * (6/10) + p.score * (4/10),
                       bbox := pb }
            some
              { cands := setKey s.cands rKey c',
                nowKeys := nk,
                confirmed :=
                  if CONFIRM_FRAMES ≤ c'.frames then s.confirmed ++ [p] else s.confirmed }
          | none =>
            let lockResult : Option TrackStateO :=
              match matchedKey, matchedLoc with
              | none, some lk =>
                match lookupKey s.cands lk with
                | some existing =>
                  if CLASS_LOCK_FRAMES ≤ existing.frames then
                    let existingFit := aspectScore existing.cls pb * existing.score
                    let newFit := aspectScore p.cls pb * p.score
                    if newFit < existingFit * (13/10) then
                      let newScore := existing.score * (7/10) + p.origScore * (3/10)
                      some
                        { cands := setKey s.cands lk
                            { existing with bbox := pb, score := newScore },
                          nowKeys := lk :: nk,
                          confirmed :=
                            if CONFIRM_FRAMES ≤ existing.frames then
                              s.confirmed ++ [{ p with cls := existing.cls, score := newScore }]
                            else s.confirmed }
                    else none
                  else none
                | none => none
              | _, _ => none
            match lockResult with
            | some st' => some st'
            | none =>
              let c : Cand := ⟨p.cls, p.score, 1, pb⟩
              some
                { cands := setKey s.cands rKey c,
                  nowKeys := nk,
                  confirmed :=
                    if CONFIRM_FRAMES ≤ (1 : ℤ) then s.confirmed ++ [p] else s.confirmed }

/-- The full guarded call: `none` models an uncaught exception aborting
`filter` (the caller's loop catches it and skips the whole frame). -/
def filterOpt (T : SizeTables) (now : Nat) (st : TrackMap)
    (raws : List RawPredO) (vw vh : ℚ) : Option (TrackMap × List SPredO) :=
  let videoArea := vw * vh
  match mapMO scoreOneO raws with
  | none => none
  | some preds =>
    let preds := sortDescBy SPredO.score preds
    match filterMO (fun p => validateSizeO T p.cls p.bbox videoArea) preds with
    | none => none
    | some preds =>
      let preds := preds.filter (fun p => decide ((45 : ℚ)/100 ≤ p.score))
      match nmsO preds with
      | none => none
      | some kept =>
        match kept.foldl resolveStepO (some []) with
        | none => none
        | some resolved =>
          match resolved.foldl (trackStepO now) (some ⟨st, [], []⟩) with
          | none => none
          | some ts => some (decayAll ts.nowKeys ts.cands, ts.confirmed)

/-- Lift of a well-formed raw detection into the guarded input type. -/
def liftRaw (p : RawPred) : RawPredO := ⟨p.cls, some p.bbox, p.score⟩

/-- Lift of a scored detection into the guarded record type. -/
def liftS (p : SPred) : SPredO := ⟨p.cls, some p.bbox, p.score, p.origScore, p.aspectSc⟩

/-- Lift of a tracker state into the guarded record type. -/
def liftTS (ts : TrackState) : TrackStateO :=
  ⟨ts.cands, ts.nowKeys, ts.confirmed.map liftS⟩

/-- The key list of a candidate map. -/
def keysOf (m : TrackMap) : List Key := m.map Prod.fst

/-- Two class labels share a confusion group. -/
def sameGroup (a b : String) : Prop :=
  ∃ g, groupOf a = some g ∧ groupOf b = some g

/-- A well-formed detection that passes every pipeline stage. -/
def dcup : RawPred := ⟨"cup", ⟨100, 100, 40, 40⟩, 4/5⟩

/-- A degenerate (zero-width) detection that passes every pipeline stage
but can never re-match its own candidate (`iou` of the box with itself
is 0). -/
def dzero : RawPred := ⟨"person", ⟨0, 0, 0, 5⟩, 1/2⟩

/-- A locked candidate ("chair", streak 12) used in the class-lock scenarios. -/
def kChair : Key := ⟨"chair", 0, 0, 1⟩

/-- The locked candidate record. -/
def exChair : Cand := ⟨"chair", 1/2, 12, ⟨0, 0, 100, 100⟩⟩

/-- Tracker state holding only the locked "chair" candidate. -/
def stLock : TrackMap := [(kChair, exChair)]

/-- Conflicting detection at the exact hysteresis boundary:
`newFit = 13/20 = existingFit · 1.3`. -/
def rawEq : RawPred := ⟨"person", ⟨0, 0, 100, 100⟩, 13/20⟩

/-- Conflicting detection strictly below the hysteresis factor. -/
def rawLt : RawPred := ⟨"person", ⟨0, 0, 100, 100⟩, 3/5⟩

/-- Keys and state for the confusion-invariant scenario: a confirmed
"cup" candidate and a locked "bowl" candidate at overlapping regions. -/
def kCup : Key := ⟨"cup", 0, 0, 1⟩

/-- Key of the locked "bowl" candidate. -/
def kBowl : Key := ⟨"bowl", 1, 0, 1⟩

/-- State with a confirmed "cup" and a locked "bowl". -/
def stMix : TrackMap :=
  [(kCup, ⟨"cup", 1/2, 8, ⟨0, 0, 40, 40⟩⟩), (kBowl, ⟨"bowl", 9/10, 12, ⟨20, 0, 40, 40⟩⟩)]

/-- A "cup" detection over the "cup" candidate. -/
def rawCup : RawPred := ⟨"cup", ⟨0, 0, 40, 40⟩, 4/5⟩

/-- A "chair" detection over the locked "bowl" candidate; its box has
IoU 1/3 ∈ (0.3, 0.35] with `rawCup`'s box. -/
def rawChair : RawPred := ⟨"chair", ⟨20, 0, 40, 40⟩, 3/5⟩

/-- Key of the candidate used in the decay scenario. -/
def kCup7 : Key := ⟨"cup", 0, 0, 7⟩

/-- State holding one candidate with streak 8, about to decay. -/
def stDecay : TrackMap := [(kCup7, ⟨"cup", 1/2, 8, ⟨0, 0, 40, 40⟩⟩)]

theorem iou_comm (a b : Box) : iou a b = iou b a := by
  simp only [iou]
  rw [max_comm b.x a.x, max_comm b.y a.y, min_comm (b.x + b.w) (a.x + a.w),
    min_comm (b.y + b.h) (a.y + a.h)]
  split_ifs <;> ring

theorem iou_self (b : Box) (hw : 0 < b.w) (hh : 0 < b.h) : iou b b = 1 := by
  simp only [iou, min_self, max_self]
  have hnum : (b.x + b.w - b.x) * (b.y + b.h - b.y) = b.w * b.h := by ring
  rw [hnum]
  have hden : b.w * b.h + b.w * b.h - b.w * b.h = b.w * b.h := by ring
  rw [hden]
  rw [if_neg]
  · exact div_self (mul_ne_zero (ne_of_gt hw) (ne_of_gt hh))
  · push_neg
    constructor <;> linarith

theorem aspectScoreWith_pos (hint : AspectHint) (b : Box) : 0 < aspectScoreWith hint b := by
  simp only [aspectScoreWith]
  split_ifs <;>
    first
    | norm_num
    | exact lt_of_lt_of_le (by norm_num) (le_max_left _ _)

theorem aspectScore_pos (cls : String) (b : Box) : 0 < aspectScore cls b := by
  unfold aspectScore
  cases h : hintOf cls with
  | none => norm_num
  | some hint => exact aspectScoreWith_pos hint b

theorem fit_eq_score (p : SPred) (h1 : p.score = p.origScore * p.aspectSc)
    (h2 : p.aspectSc ≠ 0) : fit p = p.score := by
  simp only [fit, if_neg h2]
  rw [h1]
  ring

theorem scoreOne_shape (p : RawPred) :
    (scoreOne p).score = (scoreOne p).origScore * (scoreOne p).aspectSc ∧
    (scoreOne p).aspectSc ≠ 0 := by
  refine ⟨rfl, ?_⟩
  exact (aspectScore_pos p.cls p.bbox).ne'

theorem mem_insertDescBy {α : Type} (sc : α → ℚ) (p x : α) (l : List α) :
    x ∈ insertDescBy sc p l ↔ x = p ∨ x ∈ l := by
  induction l with
  | nil => simp [insertDescBy]
  | cons q qs ih =>
    simp only [insertDescBy]
    split_ifs with h
    · simp only [List.mem_cons, ih]
      tauto
    · simp only [List.mem_cons]

theorem pairwise_insertDescBy {α : Type} (sc : α → ℚ) (p : α) (l : List α)
    (h : l.Pairwise (fun a b => sc b ≤ sc a)) :
    (insertDescBy sc p l).Pairwise (fun a b => sc b ≤ sc a) := by
  induction l with
  | nil => simp [insertDescBy]
  | cons q qs ih =>
    rw [List.pairwise_cons] at h
    obtain ⟨hq, hqs⟩ := h
    simp only [insertDescBy]
    split_ifs with hpq
    · rw [List.pairwise_cons]
      refine ⟨?_, ih hqs⟩
      intro y hy
      rcases (mem_insertDescBy sc p y qs).mp hy with rfl | hy'
      · exact hpq
      · exact hq y hy'
    · rw [List.pairwise_cons]
      refine ⟨?_, by rw [List.pairwise_cons]; exact ⟨hq, hqs⟩⟩
      intro y hy
      rcases List.mem_cons.mp hy with rfl | hy'
      · exact le_of_lt (lt_of_not_le hpq)
      · exact le_trans (hq y hy') (le_of_lt (lt_of_not_le hpq))

theorem pairwise_sortDescBy {α : Type} (sc : α → ℚ) (l : List α) :
    (sortDescBy sc l).Pairwise (fun a b => sc b ≤ sc a) := by
  induction l with
  | nil => simp [sortDescBy]
  | cons p ps ih => exact pairwise_insertDescBy sc p _ ih

theorem mem_sortDescBy {α : Type} (sc : α → ℚ) (x : α) (l : List α) :
    x ∈ sortDescBy sc l ↔ x ∈ l := by
  induction l with
  | nil => simp [sortDescBy]
  | cons p ps ih =>
    simp only [sortDescBy, mem_insertDescBy, List.mem_cons, ih]

theorem lookupKey_setKey_self (m : TrackMap) (k : Key) (c : Cand) :
    lookupKey (setKey m k c) k = some c := by
  induction m with
  | nil => simp [setKey, lookupKey]
  | cons kc rest ih =>
    obtain ⟨k', c'⟩ := kc
    simp only [setKey]
    split_ifs with h
    · simp [lookupKey]
    · simp only [lookupKey, if_neg h]
      exact ih

theorem lookupKey_setKey_ne (m : TrackMap) (k k' : Key) (c : Cand) (h : k' ≠ k) :
    lookupKey (setKey m k c) k' = lookupKey m k' := by
  induction m with
  | nil =>
    simp only [setKey, lookupKey]
    rw [if_neg (fun hh : k = k' => h hh.symm)]
  | cons kc rest ih =>
    obtain ⟨k₁, c₁⟩ := kc
    simp only [setKey]
    split_ifs with h1
    · simp only [lookupKey]
      rw [if_neg (fun hh : k = k' => h hh.symm),
        if_neg (fun hh : k₁ = k' => h (h1.symm.trans hh).symm)]
    · simp only [lookupKey]
      split_ifs with h2
      · rfl
      · exact ih

theorem setKey_entries {m : TrackMap} {k : Key} {c : Cand} {kc : Key × Cand}
    (h : kc ∈ setKey m k c) : kc = (k, c) ∨ kc ∈ m := by
  induction m with
  | nil => simpa [setKey] using h
  | cons kc' rest ih =>
    simp only [setKey] at h
    split_ifs at h with h1
    · rcases List.mem_cons.mp h with rfl | hm
      · exact Or.inl rfl
      · exact Or.inr (List.mem_cons_of_mem _ hm)
    · rcases List.mem_cons.mp h with rfl | hm
      · exact Or.inr (List.mem_cons_self _ _)
      · rcases ih hm with h2 | h2
        · exact Or.inl h2
        · exact Or.inr (List.mem_cons_of_mem _ h2)

theorem lookupKey_mem {m : TrackMap} {k : Key} {c : Cand}
    (h : lookupKey m k = some c) : (k, c) ∈ m := by
  induction m with
  | nil => simp [lookupKey] at h
  | cons kc rest ih =>
    obtain ⟨k₁, c₁⟩ := kc
    simp only [lookupKey] at h
    split_ifs at h with h1
    · subst h1
      simp only [Option.some_inj] at h
      subst h
      exact List.mem_cons_self _ _
    · exact List.mem_cons_of_mem _ (ih h)

theorem lookupKey_eq_none_iff (m : TrackMap) (k : Key) :
    lookupKey m k = none ↔ k ∉ keysOf m := by
  induction m with
  | nil => simp [lookupKey, keysOf]
  | cons kc rest ih =>
    obtain ⟨k₁, c₁⟩ := kc
    simp only [lookupKey, keysOf, List.map_cons, List.mem_cons]
    split_ifs with h1
    · subst h1
      simp
    · simp only [ih, keysOf]
      constructor
      · intro h2 h3
        rcases h3 with h3 | h3
        · exact h1 h3.symm
        · exact h2 h3
      · intro h2 h3
        exact h2 (Or.inr h3)

theorem setKey_keys_present {m : TrackMap} {k : Key} {c₀ : Cand}
    (h : lookupKey m k = some c₀) (c : Cand) :
    keysOf (setKey m k c) = keysOf m := by
  induction m with
  | nil => simp [lookupKey] at h
  | cons kc rest ih =>
    obtain ⟨k₁, c₁⟩ := kc
    simp only [lookupKey] at h
    simp only [setKey, keysOf]
    split_ifs at h ⊢ with h1
    · subst h1
      simp
    · simp only [List.map_cons, List.cons.injEq, true_and]
      exact ih h

theorem setKey_keys_absent {m : TrackMap} {k : Key}
    (h : lookupKey m k = none) (c : Cand) :
    keysOf (setKey m k c) = keysOf m ++ [k] := by
  induction m with
  | nil => simp [setKey, keysOf]
  | cons kc rest ih =>
    obtain ⟨k₁, c₁⟩ := kc
    simp only [lookupKey] at h
    split_ifs at h with h1
    simp only [setKey, if_neg h1, keysOf, List.map_cons, List.cons_append,
      List.cons.injEq, true_and]
    exact ih h

theorem pipelineResolved_eq (T : SizeTables) (raws : List RawPred) (vw vh : ℚ) :
    pipelineResolved T raws vw vh = resolveAll (keptOf T raws vw vh) := rfl

theorem nms_aux (rem : List SPred) :
    ∀ acc : List SPred,
      acc.Pairwise (fun a b => iou a.bbox b.bbox ≤ NMS_THRESHOLD) →
      List.Sublist (rem.foldl nmsStep acc) (acc ++ rem) ∧
      (rem.foldl nmsStep acc).Pairwise (fun a b => iou a.bbox b.bbox ≤ NMS_THRESHOLD) := by
  induction rem with
  | nil =>
    intro acc hacc
    refine ⟨?_, hacc⟩
    simpa using List.Sublist.refl acc
  | cons p rest ih =>
    intro acc hacc
    simp only [List.foldl_cons]
    by_cases hd : acc.any (fun k => decide (iou p.bbox k.bbox > NMS_THRESHOLD)) = true
    · rw [show nmsStep acc p = acc from by simp [nmsStep, hd]]
      obtain ⟨h1, h2⟩ := ih acc hacc
      refine ⟨h1.trans ?_, h2⟩
      exact (List.sublist_cons_self p rest).append_left acc
    · rw [show nmsStep acc p = acc ++ [p] from by simp [nmsStep, hd]]
      rw [Bool.not_eq_true, List.any_eq_false] at hd
      have hpair : (acc ++ [p]).Pairwise (fun a b => iou a.bbox b.bbox ≤ NMS_THRESHOLD) := by
        rw [List.pairwise_append]
        refine ⟨hacc, List.pairwise_singleton _ _, ?_⟩
        intro a ha b hb
        rcases List.mem_singleton.mp hb with rfl
        have := hd a ha
        simp only [decide_eq_true_eq] at this
        rw [iou_comm]
        exact le_of_not_lt this
      obtain ⟨h1, h2⟩ := ih (acc ++ [p]) hpair
      refine ⟨h1.trans ?_, h2⟩
      rw [List.append_assoc]
      exact List.Sublist.refl _

theorem resolveScan_none {g : Nat} {p : SPred} {acc : List SPred}
    (h : resolveScan g p acc = none) :
    ∀ r ∈ acc, groupOf r.cls = some g → iou p.bbox r.bbox ≤ CONFUSION_THRESHOLD := by
  induction acc with
  | nil =>
    intro r hr
    simp at hr
  | cons r rs ih =>
    intro r' hr' hg
    simp only [resolveScan] at h
    by_cases h1 : groupOf r.cls = some g ∧ iou p.bbox r.bbox > CONFUSION_THRESHOLD
    · rw [if_pos h1] at h
      simp at h
    · rw [if_neg h1] at h
      rcases List.mem_cons.mp hr' with rfl | hm
      · by_contra hlt
        exact h1 ⟨hg, not_le.mp hlt⟩
      · have hrec : resolveScan g p rs = none := by
          cases hsc : resolveScan g p rs with
          | none => rfl
          | some v =>
            rw [hsc] at h
            simp at h
        exact ih hrec r' hm hg

theorem resolveScan_some_eq {g : Nat} {p : SPred} {acc res : List SPred}
    (hle : ∀ r ∈ acc, ¬ fit p > fit r)
    (h : resolveScan g p acc = some res) : res = acc := by
  induction acc generalizing res with
  | nil => simp [resolveScan] at h
  | cons r rs ih =>
    simp only [resolveScan] at h
    by_cases h1 : groupOf r.cls = some g ∧ iou p.bbox r.bbox > CONFUSION_THRESHOLD
    · rw [if_pos h1] at h
      rw [if_neg (hle r (List.mem_cons_self r rs))] at h
      exact (Option.some_inj.mp h).symm
    · rw [if_neg h1] at h
      cases hsc : resolveScan g p rs with
      | none =>
        rw [hsc] at h
        simp at h
      | some v =>
        rw [hsc] at h
        simp only [Option.map_some', Option.some_inj] at h
        have hv : v = rs := ih (fun r' hr' => hle r' (List.mem_cons_of_mem _ hr')) hsc
        rw [← h, hv]

theorem resolveAux (rem : List SPred) :
    ∀ acc : List SPred,
      (∀ r ∈ acc, ∀ q ∈ rem, q.score ≤ r.score) →
      (∀ r ∈ acc, fit r = r.score) →
      (∀ q ∈ rem, fit q = q.score) →
      rem.Pairwise (fun a b => b.score ≤ a.score) →
      acc.Pairwise (fun a b => sameGroup a.cls b.cls → iou a.bbox b.bbox ≤ CONFUSION_THRESHOLD) →
      List.Sublist (rem.foldl resolveStep acc) (acc ++ rem) ∧
      (rem.foldl resolveStep acc).Pairwise
        (fun a b => sameGroup a.cls b.cls → iou a.bbox b.bbox ≤ CONFUSION_THRESHOLD) := by
  induction rem with
  | nil =>
    intro acc _ _ _ _ hconf
    refine ⟨?_, hconf⟩
    simpa using List.Sublist.refl acc
  | cons p rest ih =>
    intro acc hscore hfitacc hfitrem hsorted hconf
    simp only [List.foldl_cons]
    rw [List.pairwise_cons] at hsorted
    obtain ⟨hp_rest, hsorted'⟩ := hsorted
    have hfp : fit p = p.score := hfitrem p (List.mem_cons_self _ _)
    have hpush : ∀ hcross : (∀ a ∈ acc, sameGroup a.cls p.cls → iou a.bbox p.bbox ≤ CONFUSION_THRESHOLD),
        List.Sublist (rest.foldl resolveStep (acc ++ [p])) (acc ++ p :: rest) ∧
        (rest.foldl resolveStep (acc ++ [p])).Pairwise
          (fun a b => sameGroup a.cls b.cls → iou a.bbox b.bbox ≤ CONFUSION_THRESHOLD) := by
      intro hcross
      have hscore' : ∀ r ∈ acc ++ [p], ∀ q ∈ rest, q.score ≤ r.score := by
        intro r hr q hq
        rcases List.mem_append.mp hr with hr' | hr'
        · exact hscore r hr' q (List.mem_cons_of_mem _ hq)
        · rcases List.mem_singleton.mp hr' with rfl
          exact hp_rest q hq
      have hfitacc' : ∀ r ∈ acc ++ [p], fit r = r.score := by
        intro r hr
        rcases List.mem_append.mp hr with hr' | hr'
        · exact hfitacc r hr'
        · rcases List.mem_singleton.mp hr' with rfl
          exact hfp
      have hfitrem' : ∀ q ∈ rest, fit q = q.score :=
        fun q hq => hfitrem q (List.mem_cons_of_mem _ hq)
      have hconf' : (acc ++ [p]).Pairwise
          (fun a b => sameGroup a.cls b.cls → iou a.bbox b.bbox ≤ CONFUSION_THRESHOLD) := by
        rw [List.pairwise_append]
        refine ⟨hconf, List.pairwise_singleton _ _, ?_⟩
        intro a ha b hb
        rcases List.mem_singleton.mp hb with rfl
        exact hcross a ha
      obtain ⟨h1, h2⟩ := ih (acc ++ [p]) hscore' hfitacc' hfitrem' hsorted' hconf'
      refine ⟨h1.trans ?_, h2⟩
      rw [List.append_assoc]
      exact List.Sublist.refl _
    cases hg : groupOf p.cls with
    | none =>
      rw [show resolveStep acc p = acc ++ [p] from by simp [resolveStep, hg]]
      refine hpush ?_
      intro a _ hsg
      exfalso
      obtain ⟨g', _, hgp⟩ := hsg
      rw [hg] at hgp
      cases hgp
    | some g =>
      cases hsc : resolveScan g p acc with
      | none =>
        rw [show resolveStep acc p = acc ++ [p] from by simp [resolveStep, hg, hsc]]
        refine hpush ?_
        intro a ha hsg
        obtain ⟨g', hga, hgp⟩ := hsg
        rw [hg] at hgp
        rcases Option.some_inj.mp hgp with rfl
        rw [iou_comm]
        exact resolveScan_none hsc a ha hga
      | some res =>
        have hle : ∀ r ∈ acc, ¬ fit p > fit r := by
          intro r hr
          rw [hfp, hfitacc r hr]
          exact not_lt.mpr (hscore r hr p (List.mem_cons_self _ _))
        have hres : res = acc := resolveScan_some_eq hle hsc
        rw [show resolveStep acc p = acc from by simp [resolveStep, hg, hsc, hres]]
        have hscore' : ∀ r ∈ acc, ∀ q ∈ rest, q.score ≤ r.score :=
          fun r hr q hq => hscore r hr q (List.mem_cons_of_mem _ hq)
        have hfitrem' : ∀ q ∈ rest, fit q = q.score :=
          fun q hq => hfitrem q (List.mem_cons_of_mem _ hq)
        obtain ⟨h1, h2⟩ := ih acc hscore' hfitacc hfitrem' hsorted' hconf
        refine ⟨h1.trans ?_, h2⟩
        exact (List.sublist_cons_self p rest).append_left acc

theorem keptOf_fit (T : SizeTables) (raws : List RawPred) (vw vh : ℚ) :
    ∀ q ∈ keptOf T raws vw vh, fit q = q.score ∧ q.aspectSc ≠ 0 := by
  intro q hq
  have hsub : List.Sublist (keptOf T raws vw vh)
      (((sortDescBy SPred.score (raws.map scoreOne)).filter
        (fun p => validateSize T p.cls p.bbox (vw * vh))).filter
        (fun p => decide ((45 : ℚ)/100 ≤ p.score))) := by
    have := nms_aux (((sortDescBy SPred.score (raws.map scoreOne)).filter
        (fun p => validateSize T p.cls p.bbox (vw * vh))).filter
        (fun p => decide ((45 : ℚ)/100 ≤ p.score))) [] (by simp)
    simpa [keptOf, nms] using this.1
  have hq2 := hsub.mem hq
  have hq3 := List.mem_of_mem_filter (List.mem_of_mem_filter hq2)
  have hq4 := (mem_sortDescBy SPred.score q _).mp hq3
  obtain ⟨r, _, rfl⟩ := List.mem_map.mp hq4
  refine ⟨?_, (scoreOne_shape r).2⟩
  exact fit_eq_score _ (scoreOne_shape r).1 (scoreOne_shape r).2

theorem keptOf_sorted (T : SizeTables) (raws : List RawPred) (vw vh : ℚ) :
    (keptOf T raws vw vh).Pairwise (fun a b => b.score ≤ a.score) := by
  have hsub : List.Sublist (keptOf T raws vw vh)
      (((sortDescBy SPred.score (raws.map scoreOne)).filter
        (fun p => validateSize T p.cls p.bbox (vw * vh))).filter
        (fun p => decide ((45 : ℚ)/100 ≤ p.score))) := by
    have := nms_aux (((sortDescBy SPred.score (raws.map scoreOne)).filter
        (fun p => validateSize T p.cls p.bbox (vw * vh))).filter
        (fun p => decide ((45 : ℚ)/100 ≤ p.score))) [] (by simp)
    simpa [keptOf, nms] using this.1
  have hsorted := ((pairwise_sortDescBy SPred.score (raws.map scoreOne)).filter
    (fun p => validateSize T p.cls p.bbox (vw * vh))).filter
    (fun p => decide ((45 : ℚ)/100 ≤ p.score))
  exact hsorted.sublist hsub

theorem keptOf_nmsOK (T : SizeTables) (raws : List RawPred) (vw vh : ℚ) :
    (keptOf T raws vw vh).Pairwise (fun a b => iou a.bbox b.bbox ≤ NMS_THRESHOLD) := by
  have := nms_aux (((sortDescBy SPred.score (raws.map scoreOne)).filter
      (fun p => validateSize T p.cls p.bbox (vw * vh))).filter
      (fun p => decide ((45 : ℚ)/100 ≤ p.score))) [] (by simp)
  simpa [keptOf, nms] using this.2

/-- C5: for every input list and positive frame dimensions, any two
distinct detections in the per-frame resolved list produced by the
filter pipeline have IoU ≤ 0.35 (`NMS_THRESHOLD`); the in-place
replacement of confusion resolution never has to be exercised, because
the tie-break fit equals the adjusted score and the list is processed
in descending adjusted-score order. -/
theorem C5_nms_invariant (T : SizeTables) (raws : List RawPred) (vw vh : ℚ)
    (hw : 0 < vw) (hh : 0 < vh) :
    (pipelineResolved T raws vw vh).Pairwise
      (fun a b => iou a.bbox b.bbox ≤ NMS_THRESHOLD) := by
  rw [pipelineResolved_eq]
  have hfits : ∀ q ∈ keptOf T raws vw vh, fit q = q.score :=
    fun q hq => (keptOf_fit T raws vw vh q hq).1
  have h := resolveAux (keptOf T raws vw vh) [] (by simp) (by simp) hfits
    (keptOf_sorted T raws vw vh) (by simp)
  have hsub : List.Sublist (resolveAll (keptOf T raws vw vh)) (keptOf T raws vw vh) := by
    simpa [resolveAll] using h.1
  exact (keptOf_nmsOK T raws vw vh).sublist hsub

/-- Witness for C5 at a concrete frame with two overlapping detections. -/
theorem C5_nms_invariant_witness :
    (0 : ℚ) < 640 ∧ (0 : ℚ) < 480 ∧
    (pipelineResolved TTriv [rawCup, rawChair] 640 480).Pairwise
      (fun a b => iou a.bbox b.bbox ≤ NMS_THRESHOLD) :=
  ⟨by norm_num, by norm_num,
    C5_nms_invariant TTriv [rawCup, rawChair] 640 480 (by norm_num) (by norm_num)⟩

/-- C3 (amended): the confusion invariant holds on the resolved list —
any two entries whose classes share a ConfusionGroup have IoU ≤ 0.3, the
lower-fit one having been excluded during resolution — and therefore on
any confirmed detections emitted with their own resolved class. It does
NOT extend to confirmed detections whose class was substituted by the
class-lock override (see the counterexample). -/
theorem C3_confusion_resolved (T : SizeTables) (raws : List RawPred) (vw vh : ℚ) :
    (pipelineResolved T raws vw vh).Pairwise
      (fun a b => sameGroup a.cls b.cls → iou a.bbox b.bbox ≤ CONFUSION_THRESHOLD) := by
  rw [pipelineResolved_eq]
  have hfits : ∀ q ∈ keptOf T raws vw vh, fit q = q.score :=
    fun q hq => (keptOf_fit T raws vw vh q hq).1
  have h := resolveAux (keptOf T raws vw vh) [] (by simp) (by simp) hfits
    (keptOf_sorted T raws vw vh) (by simp)
  simpa [resolveAll] using h.2

/-- C3 counterexample: a frame in which the class-lock override turns a
resolved "chair" detection into a confirmed "bowl" detection while a
"cup" detection is confirmed at IoU 1/3 > 0.3 — two confirmed
detections in the same confusion group, neither excluded. -/
theorem C3_counterexample :
    (filterCall TTriv 3 stMix [rawCup, rawChair] 640 480).2 =
      [⟨"cup", ⟨0, 0, 40, 40⟩, 4/5, 4/5, 1⟩, ⟨"bowl", ⟨20, 0, 40, 40⟩, 81/100, 3/5, 1⟩] ∧
    groupOf "cup" = some 1 ∧ groupOf "bowl" = some 1 ∧
    iou ⟨0, 0, 40, 40⟩ ⟨20, 0, 40, 40⟩ > CONFUSION_THRESHOLD := by
  with_unfolding_all decide

/-- C1 (amended): class-lock hysteresis with the source's strict
comparison. If a resolved detection `p` has no exact match, its first
spatial-only match (IoU > 0.4, scan order) is a candidate with streak
≥ `CLASS_LOCK_FRAMES`, the fresh key is unused, and
`newFit < existingFit · 1.3` holds STRICTLY, then the locked candidate
wins: its bbox becomes `p.bbox`, its score becomes
`0.7·old + 0.3·p.origScore`, it is marked seen, no new candidate is
created (the key set is unchanged), and if its streak is at least
`CONFIRM_FRAMES` a confirmed detection with the locked class and the
updated score is emitted. At `newFit = existingFit · 1.3` exactly, the
code instead creates a new candidate (see the counterexample). -/
theorem C1_locked_wins (now : Nat) (st : TrackState) (p : SPred) (lk : Key) (ex : Cand)
    (hscan : scanCands p st.cands none = (none, some lk))
    (hex : lookupKey st.cands lk = some ex)
    (hlock : CLASS_LOCK_FRAMES ≤ ex.frames)
    (hfresh : lookupKey st.cands (freshKey p now) = none)
    (hfit : aspectScore p.cls p.bbox * p.score <
      aspectScore ex.cls p.bbox * ex.score * (13/10)) :
    trackStep now st p =
      { cands := setKey st.cands lk
          { ex with bbox := p.bbox, score := ex.score * (7/10) + p.origScore * (3/10) },
        nowKeys := lk :: freshKey p now :: st.nowKeys,
        confirmed :=
          if CONFIRM_FRAMES ≤ ex.frames then
            st.confirmed ++ [{ p with cls := ex.cls, score := ex.score * (7/10) + p.origScore * (3/10) }]
          else st.confirmed } ∧
    keysOf (trackStep now st p).cands = keysOf st.cands := by
  have hmain : trackStep now st p =
      { cands := setKey st.cands lk
          { ex with bbox := p.bbox, score := ex.score * (7/10) + p.origScore * (3/10) },
        nowKeys := lk :: freshKey p now :: st.nowKeys,
        confirmed :=
          if CONFIRM_FRAMES ≤ ex.frames then
            st.confirmed ++ [{ p with cls := ex.cls, score := ex.score * (7/10) + p.origScore * (3/10) }]
          else st.confirmed } := by
    simp only [trackStep, hscan, Option.getD, hfresh, hex, if_pos hlock, if_pos hfit]
  refine ⟨hmain, ?_⟩
  rw [hmain]
  exact setKey_keys_present hex _

/-- Witness for C1 at a concrete locked state: the "chair" candidate
(streak 12) beats a strictly-weaker "person" detection, keeps its class
and emits "chair". -/
theorem C1_locked_wins_witness :
    scanCands (scoreOne rawLt) stLock none = (none, some kChair) ∧
    lookupKey stLock kChair = some exChair ∧
    CLASS_LOCK_FRAMES ≤ exChair.frames ∧
    aspectScore (scoreOne rawLt).cls (scoreOne rawLt).bbox * (scoreOne rawLt).score <
      aspectScore exChair.cls (scoreOne rawLt).bbox * exChair.score * (13/10) ∧
    trackStep 5 ⟨stLock, [], []⟩ (scoreOne rawLt) =
      { cands := setKey stLock kChair
          { exChair with
            bbox := (scoreOne rawLt).bbox
            score := exChair.score * (7/10) + (scoreOne rawLt).origScore * (3/10) },
        nowKeys := [kChair, freshKey (scoreOne rawLt) 5],
        confirmed :=
          if CONFIRM_FRAMES ≤ exChair.frames then
            [{ (scoreOne rawLt) with
               cls := exChair.cls
               score := exChair.score * (7/10) + (scoreOne rawLt).origScore * (3/10) }]
          else [] } ∧
    keysOf (trackStep 5 ⟨stLock, [], []⟩ (scoreOne rawLt)).cands = keysOf stLock := by
  refine ⟨by with_unfolding_all decide, by with_unfolding_all decide,
    by with_unfolding_all decide, by with_unfolding_all decide, ?_, ?_⟩
  · exact (C1_locked_wins 5 ⟨stLock, [], []⟩ (scoreOne rawLt) kChair exChair
      (by with_unfolding_all decide) (by with_unfolding_all decide)
      (by with_unfolding_all decide) (by with_unfolding_all decide)
      (by with_unfolding_all decide)).1
  · exact (C1_locked_wins 5 ⟨stLock, [], []⟩ (scoreOne rawLt) kChair exChair
      (by with_unfolding_all decide) (by with_unfolding_all decide)
      (by with_unfolding_all decide) (by with_unfolding_all decide)
      (by with_unfolding_all decide)).2

/-- C1 counterexample: at the exact boundary `newFit = existingFit·1.3`
(where the claim's `≤` would let the locked candidate win), the code's
strict `<` fails, a NEW candidate is created for `p`, the locked
candidate is not marked seen (it decays from streak 12 to 10, keeping
its old bbox and score), and nothing is confirmed. -/
theorem C1_counterexample :
    pipelineResolved TTriv [rawEq] 640 480 = [scoreOne rawEq] ∧
    scanCands (scoreOne rawEq) stLock none = (none, some kChair) ∧
    lookupKey stLock kChair = some exChair ∧
    CLASS_LOCK_FRAMES ≤ exChair.frames ∧
    aspectScore (scoreOne rawEq).cls (scoreOne rawEq).bbox * (scoreOne rawEq).score ≤
      aspectScore exChair.cls (scoreOne rawEq).bbox * exChair.score * (13/10) ∧
    keysOf (filterCall TTriv 5 stLock [rawEq] 640 480).1 ≠ keysOf stLock ∧
    lookupKey (filterCall TTriv 5 stLock [rawEq] 640 480).1 kChair =
      some ⟨"chair", 1/2, 10, ⟨0, 0, 100, 100⟩⟩ ∧
    (filterCall TTriv 5 stLock [rawEq] 640 480).2 = [] := by
  with_unfolding_all decide

/-- C7: the source's `aspectScore` agrees everywhere with the
spec-worded multiplier (`aspectScoreSpec`), and step 1 of the pipeline
sets the adjusted score to `score · multiplier` while retaining the
original score and the multiplier. -/
theorem C7_aspect_score :
    (∀ cls bbox, aspectScore cls bbox = aspectScoreSpec cls bbox) ∧
    (∀ p : RawPred, scoreOne p =
      ⟨p.cls, p.bbox, p.score * aspectScore p.cls p.bbox, p.score, aspectScore p.cls p.bbox⟩) := by
  constructor
  · intro cls bbox
    simp only [aspectScore, aspectScoreSpec]
    cases hintOf cls with
    | none => rfl
    | some hint =>
      simp only [aspectScoreWith]
      by_cases h0 : bbox.w = 0
      · rw [if_pos h0, if_pos h0]
      · rw [if_neg h0, if_neg h0]
        by_cases hin : hint.min ≤ bbox.h / bbox.w ∧ bbox.h / bbox.w ≤ hint.max
        · rw [if_pos hin, if_neg (not_lt.mpr hin.1), if_neg (not_lt.mpr hin.2)]
        · rw [if_neg hin]
          push_neg at hin
          by_cases hlt : bbox.h / bbox.w < hint.min
          · rw [if_pos hlt, if_pos hlt]
          · rw [if_neg hlt, if_neg hlt]
            have hmax : hint.max < bbox.h / bbox.w := hin (not_lt.mp hlt)
            rw [if_pos hmax]
  · intro p
    rfl

theorem liftS_cls (p : SPred) : (liftS p).cls = p.cls := rfl

theorem liftS_bbox (p : SPred) : (liftS p).bbox = some p.bbox := rfl

theorem liftS_score (p : SPred) : (liftS p).score = p.score := rfl

theorem aspectScoreO_lift (cls : String) (b : Box) :
    aspectScoreO cls (some b) = some (aspectScore cls b) := by
  simp only [aspectScoreO, aspectScore]
  cases hintOf cls <;> rfl

theorem scoreOneO_lift (p : RawPred) :
    scoreOneO (liftRaw p) = some (liftS (scoreOne p)) := by
  simp only [scoreOneO, liftRaw, aspectScoreO_lift]
  rfl

theorem mapMO_lift (raws : List RawPred) :
    mapMO scoreOneO (raws.map liftRaw) = some ((raws.map scoreOne).map liftS) := by
  induction raws with
  | nil => rfl
  | cons r rs ih =>
    simp only [List.map_cons, mapMO, scoreOneO_lift, ih]

theorem insertDescBy_lift (p : SPred) (l : List SPred) :
    insertDescBy SPredO.score (liftS p) (l.map liftS) =
      (insertDescBy SPred.score p l).map liftS := by
  induction l with
  | nil => rfl
  | cons q qs ih =>
    simp only [List.map_cons, insertDescBy, liftS_score]
    split_ifs with h
    · simp only [List.map_cons, ih]
    · simp only [List.map_cons]

theorem sortDescBy_lift (l : List SPred) :
    sortDescBy SPredO.score (l.map liftS) = (sortDescBy SPred.score l).map liftS := by
  induction l with
  | nil => rfl
  | cons p ps ih =>
    simp only [List.map_cons, sortDescBy, ih, insertDescBy_lift]

theorem validateSizeO_lift (T : SizeTables) (cls : String) (b : Box) (A : ℚ) :
    validateSizeO T cls (some b) A = some (validateSize T cls b A) := by
  cases hd : T.dictSize cls with
  | none => simp [validateSizeO, validateSize, hd]
  | some sz =>
    cases hr : T.sizeRanges sz with
    | none => simp [validateSizeO, validateSize, hd, hr]
    | some range => simp [validateSizeO, validateSize, hd, hr]

theorem filterMO_lift (T : SizeTables) (A : ℚ) (l : List SPred) :
    filterMO (fun p => validateSizeO T p.cls p.bbox A) (l.map liftS) =
      some ((l.filter (fun p => validateSize T p.cls p.bbox A)).map liftS) := by
  induction l with
  | nil => rfl
  | cons q qs ih =>
    simp only [List.map_cons, filterMO, liftS_cls, liftS_bbox, validateSizeO_lift, ih,
      List.filter_cons]
    cases validateSize T q.cls q.bbox A <;> simp

theorem floorFilter_lift (l : List SPred) :
    (l.map liftS).filter (fun p => decide ((45 : ℚ)/100 ≤ p.score)) =
      (l.filter (fun p => decide ((45 : ℚ)/100 ≤ p.score))).map liftS := by
  induction l with
  | nil => rfl
  | cons q qs ih =>
    simp only [List.map_cons, List.filter_cons, liftS_score, ih]
    cases hq : decide ((45 : ℚ)/100 ≤ q.score) <;> simp [hq]

theorem anyMO_lift (pb : Box) (l : List SPred) :
    anyMO (fun k => (iouO (some pb) k.bbox).map (fun i => decide (i > NMS_THRESHOLD)))
        (l.map liftS) =
      some (l.any (fun k => decide (iou pb k.bbox > NMS_THRESHOLD))) := by
  induction l with
  | nil => rfl
  | cons q qs ih =>
    have hio : iouO (some pb) (liftS q).bbox = some (iou pb q.bbox) := rfl
    cases hq : decide (iou pb q.bbox > NMS_THRESHOLD) with
    | true => simp [anyMO, hio, hq]
    | false => simp [anyMO, hio, hq, ih]

theorem nmsFold_lift (l : List SPred) :
    ∀ acc : List SPred,
      (l.map liftS).foldl nmsStepO (some (acc.map liftS)) =
        some ((l.foldl nmsStep acc).map liftS) := by
  induction l with
  | nil => intro acc; rfl
  | cons p ps ih =>
    intro acc
    simp only [List.map_cons, List.foldl_cons]
    have h1 : nmsStepO (some (acc.map liftS)) (liftS p) = some ((nmsStep acc p).map liftS) := by
      simp only [nmsStepO, liftS_bbox, anyMO_lift, nmsStep]
      cases hq : acc.any (fun k => decide (iou p.bbox k.bbox > NMS_THRESHOLD)) <;>
        simp [hq]
    rw [h1, ih]

theorem nmsO_lift (l : List SPred) : nmsO (l.map liftS) = some ((nms l).map liftS) := by
  have := nmsFold_lift l []
  simpa [nmsO, nms] using this

theorem fitO_lift (p : SPred) : fitO (liftS p) = fit p := rfl

theorem resolveScanO_lift (g : Nat) (p : SPred) (l : List SPred) :
    resolveScanO g (liftS p) (l.map liftS) =
      some ((resolveScan g p l).map (List.map liftS)) := by
  induction l with
  | nil => rfl
  | cons r rs ih =>
    have hio : iouO (liftS p).bbox (liftS r).bbox = some (iou p.bbox r.bbox) := rfl
    by_cases hg : groupOf r.cls = some g
    · by_cases hi : iou p.bbox r.bbox > CONFUSION_THRESHOLD
      · by_cases hf : fit p > fit r
        · simp [resolveScanO, resolveScan, hio, liftS_cls, fitO_lift, hg, hi, hf]
        · simp [resolveScanO, resolveScan, hio, liftS_cls, fitO_lift, hg, hi, hf]
      · cases hsc : resolveScan g p rs with
        | none => simp [resolveScanO, resolveScan, hio, liftS_cls, hg, hi, ih, hsc]
        | some v => simp [resolveScanO, resolveScan, hio, liftS_cls, hg, hi, ih, hsc]
    · cases hsc : resolveScan g p rs with
      | none => simp [resolveScanO, resolveScan, hio, liftS_cls, hg, ih, hsc]
      | some v => simp [resolveScanO, resolveScan, hio, liftS_cls, hg, ih, hsc]

theorem resolveFold_lift (l : List SPred) :
    ∀ acc : List SPred,
      (l.map liftS).foldl resolveStepO (some (acc.map liftS)) =
        some ((l.foldl resolveStep acc).map liftS) := by
  induction l with
  | nil => intro acc; rfl
  | cons p ps ih =>
    intro acc
    simp only [List.map_cons, List.foldl_cons]
    have h1 : resolveStepO (some (acc.map liftS)) (liftS p) =
        some ((resolveStep acc p).map liftS) := by
      cases hg : groupOf p.cls with
      | none => simp [resolveStepO, resolveStep, liftS_cls, hg]
      | some g =>
        cases hsc : resolveScan g p acc with
        | none => simp [resolveStepO, resolveStep, liftS_cls, resolveScanO_lift, hg, hsc]
        | some res => simp [resolveStepO, resolveStep, liftS_cls, resolveScanO_lift, hg, hsc]
    rw [h1, ih]

theorem scanCandsO_lift (p : SPred) (m : TrackMap) (loc : Option Key) :
    scanCandsO (liftS p) m loc = some (scanCands p m loc) := by
  induction m generalizing loc with
  | nil => rfl
  | cons kc rest ih =>
    obtain ⟨k, c⟩ := kc
    simp only [scanCandsO, scanCands, liftS_cls, liftS_bbox]
    by_cases h : c.cls = p.cls ∧ iou c.bbox p.bbox > 1/4
    · rw [if_pos h, if_pos h]
    · rw [if_neg h, if_neg h]
      exact ih _

theorem liftS_orig (p : SPred) : (liftS p).origScore = p.origScore := rfl

theorem liftS_aspect (p : SPred) : (liftS p).aspectSc = p.aspectSc := rfl

theorem liftS_mk (a : String) (b : Box) (c d e : ℚ) :
    liftS ⟨a, b, c, d, e⟩ = ⟨a, some b, c, d, e⟩ := rfl

theorem trackStepO_lift (now : Nat) (ts : TrackState) (p : SPred) :
    trackStepO now (some (liftTS ts)) (liftS p) = some (liftTS (trackStep now ts p)) := by
  rcases hscan : scanCands p ts.cands none with ⟨mk, ml⟩
  rcases mk with _ | k
  · rcases hlook : lookupKey ts.cands
      ⟨p.cls, jsRound (p.bbox.x / 40), jsRound (p.bbox.y / 40), now⟩ with _ | c
    · rcases ml with _ | lk
      · simp [trackStepO, trackStep, liftTS, scanCandsO_lift, hscan, hlook, freshKey,
          liftS_cls, liftS_bbox, liftS_score, liftS_orig, liftS_aspect, liftS_mk,
          apply_ite (List.map liftS)]
      · rcases hlk : lookupKey ts.cands lk with _ | ex
        · simp [trackStepO, trackStep, liftTS, scanCandsO_lift, hscan, hlook, hlk, freshKey,
            liftS_cls, liftS_bbox, liftS_score, liftS_orig, liftS_aspect, liftS_mk,
            apply_ite (List.map liftS)]
        · by_cases h12 : CLASS_LOCK_FRAMES ≤ ex.frames
          · by_cases hf : aspectScore p.cls p.bbox * p.score <
                aspectScore ex.cls p.bbox * ex.score * (13/10)
            · simp [trackStepO, trackStep, liftTS, scanCandsO_lift, hscan, hlook, hlk, freshKey,
                h12, hf, liftS_cls, liftS_bbox, liftS_score, liftS_orig, liftS_aspect, liftS_mk,
                apply_ite (List.map liftS)]
            · simp [trackStepO, trackStep, liftTS, scanCandsO_lift, hscan, hlook, hlk, freshKey,
                h12, hf, liftS_cls, liftS_bbox, liftS_score, liftS_orig, liftS_aspect, liftS_mk,
                apply_ite (List.map liftS)]
          · simp [trackStepO, trackStep, liftTS, scanCandsO_lift, hscan, hlook, hlk, freshKey,
              h12, liftS_cls, liftS_bbox, liftS_score, liftS_orig, liftS_aspect, liftS_mk,
              apply_ite (List.map liftS)]
    · simp [trackStepO, trackStep, liftTS, scanCandsO_lift, hscan, hlook, freshKey,
        liftS_cls, liftS_bbox, liftS_score, liftS_orig, liftS_aspect, liftS_mk,
        apply_ite (List.map liftS)]
  · rcases hlook : lookupKey ts.cands k with _ | c
    · simp [trackStepO, trackStep, liftTS, scanCandsO_lift, hscan, hlook, freshKey,
        liftS_cls, liftS_bbox, liftS_score, liftS_orig, liftS_aspect, liftS_mk,
        apply_ite (List.map liftS)]
    · simp [trackStepO, trackStep, liftTS, scanCandsO_lift, hscan, hlook, freshKey,
        liftS_cls, liftS_bbox, liftS_score, liftS_orig, liftS_aspect, liftS_mk,
        apply_ite (List.map liftS)]

theorem liftTS_cands (ts : TrackState) : (liftTS ts).cands = ts.cands := rfl

theorem liftTS_nowKeys (ts : TrackState) : (liftTS ts).nowKeys = ts.nowKeys := rfl

theorem liftTS_confirmed (ts : TrackState) : (liftTS ts).confirmed = ts.confirmed.map liftS := rfl

theorem trackFold_lift (now : Nat) (l : List SPred) :
    ∀ ts : TrackState,
      (l.map liftS).foldl (trackStepO now) (some (liftTS ts)) =
        some (liftTS (l.foldl (trackStep now) ts)) := by
  induction l with
  | nil => intro ts; rfl
  | cons p ps ih =>
    intro ts
    simp only [List.map_cons, List.foldl_cons, trackStepO_lift]
    exact ih _

/-- C2 (amended): when every raw detection's bbox is present, the call
completes and the guarded semantics agrees with the total pipeline; a
raw detection with a missing bbox instead aborts the whole call (see
the counterexample), and degenerate zero-width boxes are not dropped. -/
theorem C2_wellformed_completes (T : SizeTables) (now : Nat) (st : TrackMap)
    (raws : List RawPred) (vw vh : ℚ) :
    filterOpt T now st (raws.map liftRaw) vw vh =
      some ((filterCall T now st raws vw vh).1,
        (filterCall T now st raws vw vh).2.map liftS) := by
  have hTrack : ∀ l : List SPred,
      (l.map liftS).foldl (trackStepO now) (some ⟨st, [], []⟩) =
        some (liftTS (l.foldl (trackStep now) ⟨st, [], []⟩)) := by
    intro l
    have h0 : (⟨st, [], []⟩ : TrackStateO) = liftTS ⟨st, [], []⟩ := rfl
    rw [h0, trackFold_lift]
  have hRes : ∀ l : List SPred,
      (l.map liftS).foldl resolveStepO (some []) =
        some ((l.foldl resolveStep []).map liftS) := by
    intro l
    simpa using resolveFold_lift l []
  simp only [filterOpt, filterCall, pipelineResolved, resolveAll, mapMO_lift,
    sortDescBy_lift, filterMO_lift, floorFilter_lift, nmsO_lift, hRes,
    hTrack, liftTS_cands, liftTS_nowKeys, liftTS_confirmed]

/-- C2 counterexample: a single raw detection with a missing bbox makes
the whole `filter` call abort (the TypeError of reading `bbox[2]`),
rather than being dropped item-by-item — and this holds for hinted and
unhinted classes alike; moreover a degenerate zero-width detection is
not dropped: it creates a candidate. -/
theorem C2_counterexample :
    filterOpt TTriv 0 [] [⟨"cup", none, 9/10⟩] 640 480 = none ∧
    filterOpt TTriv 0 [] [⟨"person", none, 9/10⟩] 640 480 = none ∧
    (filterCall TTriv 1 [] [dzero] 640 480).1.length = 1 := by
  with_unfolding_all decide

theorem pipeline_singleton (T : SizeTables) (d : RawPred) (vw vh : ℚ)
    (hv : validateSize T d.cls d.bbox (vw * vh) = true)
    (hs : (45 : ℚ)/100 ≤ (scoreOne d).score) :
    pipelineResolved T [d] vw vh = [scoreOne d] := by
  have hkept : keptOf T [d] vw vh = [scoreOne d] := by
    simp only [keptOf, List.map_cons, List.map_nil]
    rw [show sortDescBy SPred.score [scoreOne d] = [scoreOne d] from rfl]
    rw [List.filter_cons, List.filter_nil]
    rw [show validateSize T (scoreOne d).cls (scoreOne d).bbox (vw * vh) = true from hv]
    rw [if_pos rfl]
    rw [List.filter_cons, List.filter_nil]
    rw [decide_eq_true hs, if_pos rfl]
    rfl
  rw [pipelineResolved_eq, hkept]
  cases hg : groupOf (scoreOne d).cls with
  | none => simp [resolveAll, resolveStep, hg]
  | some g => simp [resolveAll, resolveStep, resolveScan, hg]

theorem trackStep_empty (now : Nat) (p : SPred) :
    trackStep now ⟨[], [], []⟩ p =
      ⟨[(freshKey p now, ⟨p.cls, p.score, 1, p.bbox⟩)], [freshKey p now], []⟩ := by
  simp only [trackStep, scanCands, lookupKey, Option.getD, setKey]
  rw [if_neg (by norm_num [CONFIRM_FRAMES] : ¬(CONFIRM_FRAMES ≤ (1 : ℤ)))]

theorem decayAll_all_seen (nk : List Key) (m : TrackMap)
    (h : ∀ kc ∈ m, nk.contains kc.1 = true) : decayAll nk m = m := by
  induction m with
  | nil => rfl
  | cons kc rest ih =>
    have h1 := h kc (List.mem_cons_self _ _)
    simp only [decayAll, List.map_cons, List.filter_cons, h1, if_pos, Bool.true_or,
      if_true]
    have h2 := ih (fun kc' hkc' => h kc' (List.mem_cons_of_mem _ hkc'))
    simp only [decayAll] at h2
    rw [h2]

theorem filterCall_first (T : SizeTables) (d : RawPred) (vw vh : ℚ) (now : Nat)
    (hv : validateSize T d.cls d.bbox (vw * vh) = true)
    (hs : (45 : ℚ)/100 ≤ (scoreOne d).score) :
    filterCall T now [] [d] vw vh =
      ([(freshKey (scoreOne d) now, ⟨d.cls, (scoreOne d).score, 1, d.bbox⟩)], []) := by
  simp only [filterCall, pipeline_singleton T d vw vh hv hs, List.foldl_cons,
    List.foldl_nil, trackStep_empty]
  rw [decayAll_all_seen _ _ (fun kc hkc => by
    rcases List.mem_singleton.mp hkc with rfl
    simp [List.contains_cons])]
  rfl

theorem iou_pos_quarter (b : Box) (hw : 0 < b.w) (hh : 0 < b.h) :
    iou b b > 1/4 := by
  rw [iou_self b hw hh]
  norm_num

theorem filterCall_matched (T : SizeTables) (d : RawPred) (vw vh : ℚ) (now : Nat)
    (k : Key) (s : ℚ) (m : ℤ)
    (hv : validateSize T d.cls d.bbox (vw * vh) = true)
    (hs : (45 : ℚ)/100 ≤ (scoreOne d).score)
    (hw : 0 < d.bbox.w) (hh : 0 < d.bbox.h) :
    filterCall T now [(k, ⟨d.cls, s, m, d.bbox⟩)] [d] vw vh =
      ([(k, ⟨d.cls, s * (6/10) + (scoreOne d).score * (4/10), m + 1, d.bbox⟩)],
        if CONFIRM_FRAMES ≤ m + 1 then [scoreOne d] else []) := by
  have hcond : (⟨d.cls, s, m, d.bbox⟩ : Cand).cls = (scoreOne d).cls ∧
      iou (⟨d.cls, s, m, d.bbox⟩ : Cand).bbox (scoreOne d).bbox > 1/4 := by
    refine ⟨rfl, ?_⟩
    exact iou_pos_quarter d.bbox hw hh
  have hscan : scanCands (scoreOne d) [(k, ⟨d.cls, s, m, d.bbox⟩)] none = (some k, none) := by
    simp only [scanCands]
    rw [if_pos hcond]
  simp only [filterCall, pipeline_singleton T d vw vh hv hs, List.foldl_cons,
    List.foldl_nil, trackStep, hscan, Option.getD, lookupKey, if_pos rfl, setKey]
  rw [decayAll_all_seen]
  · rfl
  · intro kc hkc
    rcases List.mem_singleton.mp hkc with rfl
    simp [List.contains_cons]

theorem runFrom_state (T : SizeTables) (d : RawPred) (vw vh : ℚ)
    (hv : validateSize T d.cls d.bbox (vw * vh) = true)
    (hs : (45 : ℚ)/100 ≤ (scoreOne d).score)
    (hw : 0 < d.bbox.w) (hh : 0 < d.bbox.h) :
    ∀ n : Nat, ∃ s : ℚ,
      (runFrom T d vw vh [] (n + 1)).1 =
        [(freshKey (scoreOne d) 1, ⟨d.cls, s, ((n : ℤ) + 1), d.bbox⟩)] ∧
      (runFrom T d vw vh [] (n + 1)).2 =
        (if CONFIRM_FRAMES ≤ (n : ℤ) + 1 then [scoreOne d] else []) := by
  intro n
  induction n with
  | zero =>
    refine ⟨(scoreOne d).score, ?_, ?_⟩
    · show (filterCall T 1 [] [d] vw vh).1 = _
      rw [filterCall_first T d vw vh 1 hv hs]
      norm_num
    · show (filterCall T 1 [] [d] vw vh).2 = _
      rw [filterCall_first T d vw vh 1 hv hs]
      simp [CONFIRM_FRAMES]
  | succ m ih =>
    obtain ⟨s, hst, _⟩ := ih
    refine ⟨s * (6/10) + (scoreOne d).score * (4/10), ?_, ?_⟩
    · show (filterCall T (m + 1 + 1) (runFrom T d vw vh [] (m + 1)).1 [d] vw vh).1 = _
      rw [hst, filterCall_matched T d vw vh (m + 1 + 1) _ _ _ hv hs hw hh]
      norm_num
    · show (filterCall T (m + 1 + 1) (runFrom T d vw vh [] (m + 1)).1 [d] vw vh).2 = _
      rw [hst, filterCall_matched T d vw vh (m + 1 + 1) _ _ _ hv hs hw hh]
      norm_num

/-- C4 (amended): confirmation delay. Feeding the same single detection
— one that passes every pipeline stage AND has a non-degenerate bbox
(positive width and height, so it re-matches its own candidate) — on 8
consecutive calls from the empty state returns an empty confirmed list
on calls 1 through 7 and confirms exactly on call 8. A degenerate
stage-passing detection is never confirmed (see the counterexample). -/
theorem C4_confirmation_delay (T : SizeTables) (d : RawPred) (vw vh : ℚ)
    (hv : validateSize T d.cls d.bbox (vw * vh) = true)
    (hs : (45 : ℚ)/100 ≤ (scoreOne d).score)
    (hw : 0 < d.bbox.w) (hh : 0 < d.bbox.h) :
    (∀ n : Nat, 1 ≤ n → n ≤ 7 → (runFrom T d vw vh [] n).2 = []) ∧
    (runFrom T d vw vh [] 8).2 = [scoreOne d] := by
  have core := runFrom_state T d vw vh hv hs hw hh
  constructor
  · intro n h1 h7
    obtain ⟨m, rfl⟩ : ∃ m, n = m + 1 := ⟨n - 1, by omega⟩
    obtain ⟨s, _, hout⟩ := core m
    rw [hout, if_neg]
    simp only [CONFIRM_FRAMES]
    push_cast
    omega
  · obtain ⟨s, _, hout⟩ := core 7
    rw [show (8 : Nat) = 7 + 1 from rfl, hout, if_pos]
    simp only [CONFIRM_FRAMES]
    norm_num

/-- Witness for C4 at a concrete "cup" detection. -/
theorem C4_confirmation_delay_witness :
    validateSize TTriv dcup.cls dcup.bbox (640 * 480) = true ∧
    (45 : ℚ)/100 ≤ (scoreOne dcup).score ∧
    0 < dcup.bbox.w ∧ 0 < dcup.bbox.h ∧
    (runFrom TTriv dcup 640 480 [] 7).2 = [] ∧
    (runFrom TTriv dcup 640 480 [] 8).2 = [scoreOne dcup] := by
  refine ⟨rfl, by with_unfolding_all decide, by with_unfolding_all decide,
    by with_unfolding_all decide, ?_, ?_⟩
  · exact (C4_confirmation_delay TTriv dcup 640 480 rfl (by with_unfolding_all decide)
      (by with_unfolding_all decide) (by with_unfolding_all decide)).1 7
      (by norm_num) (by norm_num)
  · exact (C4_confirmation_delay TTriv dcup 640 480 rfl (by with_unfolding_all decide)
      (by with_unfolding_all decide) (by with_unfolding_all decide)).2

/-- C4 counterexample: a zero-width "person" detection passes every
pipeline stage (it IS the resolved list and clears the score floor),
yet call 8 still returns an empty confirmed list — the claim's "exactly
on call 8" fails for it, because `iou` of the degenerate box with
itself is 0 and the candidate is recreated and evicted every call. -/
theorem C4_counterexample :
    pipelineResolved TTriv [dzero] 640 480 = [scoreOne dzero] ∧
    (45 : ℚ)/100 ≤ (scoreOne dzero).score ∧
    (runFrom TTriv dzero 640 480 [] 8).2 = [] := by
  with_unfolding_all decide

/-- C8: `reset()` removes every candidate unconditionally, giving the
initial empty state; previously confirmed input needs a fresh run of
`CONFIRM_FRAMES` (8) consecutive matching calls after `reset()` before
it is confirmed again — calls 1-7 after a reset return nothing and call
8 confirms. -/
theorem C8_reset_clears (T : SizeTables) (st : TrackMap) (d : RawPred) (vw vh : ℚ)
    (hv : validateSize T d.cls d.bbox (vw * vh) = true)
    (hs : (45 : ℚ)/100 ≤ (scoreOne d).score)
    (hw : 0 < d.bbox.w) (hh : 0 < d.bbox.h) :
    reset st = [] ∧
    (∀ n : Nat, 1 ≤ n → n ≤ 7 → (runFrom T d vw vh (reset st) n).2 = []) ∧
    (runFrom T d vw vh (reset st) 8).2 = [scoreOne d] := by
  have core := runFrom_state T d vw vh hv hs hw hh
  refine ⟨rfl, ?_, ?_⟩
  · intro n h1 h7
    obtain ⟨m, rfl⟩ : ∃ m, n = m + 1 := ⟨n - 1, by omega⟩
    obtain ⟨s, _, hout⟩ := core m
    rw [show reset st = [] from rfl, hout, if_neg]
    simp only [CONFIRM_FRAMES]
    push_cast
    omega
  · obtain ⟨s, _, hout⟩ := core 7
    rw [show reset st = [] from rfl, show (8 : Nat) = 7 + 1 from rfl, hout, if_pos]
    simp only [CONFIRM_FRAMES]
    norm_num

/-- Witness for C8 at a concrete state and detection. -/
theorem C8_reset_clears_witness :
    reset stMix = [] ∧
    (runFrom TTriv dcup 640 480 (reset stMix) 7).2 = [] ∧
    (runFrom TTriv dcup 640 480 (reset stMix) 8).2 = [scoreOne dcup] := by
  refine ⟨?_, ?_, ?_⟩
  · exact (C8_reset_clears TTriv stMix dcup 640 480 rfl (by with_unfolding_all decide)
      (by with_unfolding_all decide) (by with_unfolding_all decide)).1
  · exact (C8_reset_clears TTriv stMix dcup 640 480 rfl (by with_unfolding_all decide)
      (by with_unfolding_all decide) (by with_unfolding_all decide)).2.1 7
      (by norm_num) (by norm_num)
  · exact (C8_reset_clears TTriv stMix dcup 640 480 rfl (by with_unfolding_all decide)
      (by with_unfolding_all decide) (by with_unfolding_all decide)).2.2

theorem filterCall_nil (T : SizeTables) (now : Nat) (m : TrackMap) (vw vh : ℚ) :
    filterCall T now m [] vw vh = (decayAll [] m, []) := rfl

theorem decayAll_keys_sublist (nk : List Key) (m : TrackMap) :
    List.Sublist (keysOf (decayAll nk m)) (keysOf m) := by
  induction m with
  | nil => simp [decayAll, keysOf]
  | cons kc rest ih =>
    simp only [decayAll, List.map_cons, List.filter_cons] at ih ⊢
    by_cases hc : nk.contains kc.1 = true
    · rw [if_pos hc, if_pos (by simp only [hc, Bool.true_or])]
      simp only [keysOf, List.map_cons]
      exact List.Sublist.cons₂ _ ih
    · rw [if_neg hc]
      by_cases hf : (0 : ℤ) < kc.2.frames - DECAY_RATE
      · rw [if_pos (by simp only [Bool.or_eq_true, decide_eq_true_eq]; exact Or.inr hf)]
        simp only [keysOf, List.map_cons]
        exact List.Sublist.cons₂ _ ih
      · rw [if_neg (by
          simp only [Bool.or_eq_true, decide_eq_true_eq]
          rintro (hmem | hpos)
          · exact hc hmem
          · exact hf hpos)]
        simp only [keysOf, List.map_cons]
        exact ih.trans (List.sublist_cons_self _ _)

theorem decayAll_nil_cons (k₁ : Key) (c₁ : Cand) (rest : TrackMap) :
    decayAll [] ((k₁, c₁) :: rest) =
      (if 0 < c₁.frames - DECAY_RATE then
        (k₁, ⟨c₁.cls, c₁.score, c₁.frames - DECAY_RATE, c₁.bbox⟩) :: decayAll [] rest
      else decayAll [] rest) := by
  by_cases hf : (0 : ℤ) < c₁.frames - DECAY_RATE
  · rw [if_pos hf]
    simp [decayAll, hf]
  · rw [if_neg hf]
    simp [decayAll, hf]

theorem lookupKey_decayAll_nil (m : TrackMap) (k : Key)
    (hnd : (keysOf m).Nodup) :
    lookupKey (decayAll [] m) k =
      (match lookupKey m k with
       | some c =>
         if 0 < c.frames - DECAY_RATE then
           some ⟨c.cls, c.score, c.frames - DECAY_RATE, c.bbox⟩
         else none
       | none => none) := by
  induction m with
  | nil => rfl
  | cons kc rest ih =>
    obtain ⟨k₁, c₁⟩ := kc
    simp only [keysOf, List.map_cons, List.nodup_cons] at hnd
    obtain ⟨hk₁, hnd'⟩ := hnd
    have hnd'' : (keysOf rest).Nodup := hnd'
    rw [decayAll_nil_cons]
    by_cases hkk : k₁ = k
    · subst hkk
      have hl : lookupKey ((k₁, c₁) :: rest) k₁ = some c₁ := by
        simp [lookupKey]
      by_cases hf : (0 : ℤ) < c₁.frames - DECAY_RATE
      · rw [if_pos hf]
        simp [hl, lookupKey, hf]
      · rw [if_neg hf]
        have hnone : lookupKey (decayAll [] rest) k₁ = none := by
          rw [lookupKey_eq_none_iff]
          intro hmem
          exact hk₁ ((decayAll_keys_sublist [] rest).mem hmem)
        simp [hl, hnone, hf]
    · have hl : lookupKey ((k₁, c₁) :: rest) k = lookupKey rest k := by
        simp [lookupKey, hkk]
      by_cases hf : (0 : ℤ) < c₁.frames - DECAY_RATE
      · rw [if_pos hf]
        rw [show lookupKey ((k₁, ⟨c₁.cls, c₁.score, c₁.frames - DECAY_RATE, c₁.bbox⟩) :: decayAll [] rest) k = lookupKey (decayAll [] rest) k from by simp [lookupKey, hkk]]
        rw [hl]
        exact ih hnd''
      · rw [if_neg hf, hl]
        exact ih hnd''

/-- C6: decay and eviction timing. A candidate with streak 8 that is
matched by no resolved detection (calls with an empty detection list)
loses `DECAY_RATE` (2) streak per unmatched call: it is still present
with streak 2 after the 3rd consecutive unmatched call and is removed
exactly at the end of the 4th. -/
theorem C6_decay_eviction (T : SizeTables) (vw vh : ℚ) (m : TrackMap) (k : Key) (c : Cand)
    (hnd : (keysOf m).Nodup) (hc : lookupKey m k = some c) (hf : c.frames = 8) :
    lookupKey (skipCalls T vw vh m 3) k = some ⟨c.cls, c.score, 2, c.bbox⟩ ∧
    lookupKey (skipCalls T vw vh m 4) k = none := by
  have nd1 : (keysOf (decayAll [] m)).Nodup :=
    hnd.sublist (decayAll_keys_sublist [] m)
  have nd2 : (keysOf (decayAll [] (decayAll [] m))).Nodup :=
    nd1.sublist (decayAll_keys_sublist [] _)
  have nd3 : (keysOf (decayAll [] (decayAll [] (decayAll [] m)))).Nodup :=
    nd2.sublist (decayAll_keys_sublist [] _)
  have e1 : lookupKey (decayAll [] m) k = some ⟨c.cls, c.score, 6, c.bbox⟩ := by
    rw [lookupKey_decayAll_nil m k hnd, hc]
    norm_num [hf, DECAY_RATE]
  have e2 : lookupKey (decayAll [] (decayAll [] m)) k =
      some ⟨c.cls, c.score, 4, c.bbox⟩ := by
    rw [lookupKey_decayAll_nil _ k nd1, e1]
    norm_num [DECAY_RATE]
  have e3 : lookupKey (decayAll [] (decayAll [] (decayAll [] m))) k =
      some ⟨c.cls, c.score, 2, c.bbox⟩ := by
    rw [lookupKey_decayAll_nil _ k nd2, e2]
    norm_num [DECAY_RATE]
  have e4 : lookupKey (decayAll [] (decayAll [] (decayAll [] (decayAll [] m)))) k = none := by
    rw [lookupKey_decayAll_nil _ k nd3, e3]
    norm_num [DECAY_RATE]
  exact ⟨e3, e4⟩

/-- Witness for C6 at a concrete one-candidate state. -/
theorem C6_decay_eviction_witness :
    (keysOf stDecay).Nodup ∧
    lookupKey stDecay kCup7 = some ⟨"cup", 1/2, 8, ⟨0, 0, 40, 40⟩⟩ ∧
    lookupKey (skipCalls TTriv 640 480 stDecay 3) kCup7 =
      some ⟨"cup", 1/2, 2, ⟨0, 0, 40, 40⟩⟩ ∧
    lookupKey (skipCalls TTriv 640 480 stDecay 4) kCup7 = none := by
  refine ⟨by with_unfolding_all decide, by with_unfolding_all decide, ?_, ?_⟩
  · exact (C6_decay_eviction TTriv 640 480 stDecay kCup7 ⟨"cup", 1/2, 8, ⟨0, 0, 40, 40⟩⟩
      (by with_unfolding_all decide) (by with_unfolding_all decide) rfl).1
  · exact (C6_decay_eviction TTriv 640 480 stDecay kCup7 ⟨"cup", 1/2, 8, ⟨0, 0, 40, 40⟩⟩
      (by with_unfolding_all decide) (by with_unfolding_all decide) rfl).2

theorem trackStep_shape (now : Nat) (st : TrackState) (p : SPred) :
    (∃ k c c', lookupKey st.cands k = some c ∧ c'.cls = c.cls ∧
       (c'.frames = c.frames + 1 ∨ c'.frames = c.frames) ∧
       (trackStep now st p).cands = setKey st.cands k c') ∨
    (∃ k, lookupKey st.cands k = none ∧
       (trackStep now st p).cands = setKey st.cands k ⟨p.cls, p.score, 1, p.bbox⟩) := by
  rcases hscan : scanCands p st.cands none with ⟨mk, ml⟩
  rcases mk with _ | k
  · rcases hlook : lookupKey st.cands (freshKey p now) with _ | c
    · rcases ml with _ | lk
      · right
        refine ⟨freshKey p now, hlook, ?_⟩
        simp [trackStep, hscan, hlook, Option.getD]
      · rcases hlk : lookupKey st.cands lk with _ | ex
        · right
          refine ⟨freshKey p now, hlook, ?_⟩
          simp [trackStep, hscan, hlook, hlk, Option.getD]
        · by_cases h12 : CLASS_LOCK_FRAMES ≤ ex.frames
          · by_cases hfit : aspectScore p.cls p.bbox * p.score <
                aspectScore ex.cls p.bbox * ex.score * (13/10)
            · left
              refine ⟨lk, ex,
                { ex with
                  bbox := p.bbox
                  score := ex.score * (7/10) + p.origScore * (3/10) },
                hlk, rfl, Or.inr rfl, ?_⟩
              simp [trackStep, hscan, hlook, hlk, h12, hfit, Option.getD]
            · right
              refine ⟨freshKey p now, hlook, ?_⟩
              simp [trackStep, hscan, hlook, hlk, h12, hfit, Option.getD]
          · right
            refine ⟨freshKey p now, hlook, ?_⟩
            simp [trackStep, hscan, hlook, hlk, h12, Option.getD]
    · left
      refine ⟨freshKey p now, c,
        { c with
          frames := c.frames + 1
          score := c.score * (6/10) + p.score * (4/10)
          bbox := p.bbox },
        hlook, rfl, Or.inl rfl, ?_⟩
      simp [trackStep, hscan, hlook, Option.getD]
  · rcases hlook : lookupKey st.cands k with _ | c
    · right
      refine ⟨k, hlook, ?_⟩
      simp [trackStep, hscan, hlook, Option.getD]
    · left
      refine ⟨k, c,
        { c with
          frames := c.frames + 1
          score := c.score * (6/10) + p.score * (4/10)
          bbox := p.bbox },
        hlook, rfl, Or.inl rfl, ?_⟩
      simp [trackStep, hscan, hlook, Option.getD]

theorem setKey_live {m : TrackMap} {k : Key} {c : Cand}
    (h : ∀ kc ∈ m, 1 ≤ kc.2.frames) (hc : 1 ≤ c.frames) :
    ∀ kc ∈ setKey m k c, 1 ≤ kc.2.frames := by
  intro kc hkc
  rcases setKey_entries hkc with rfl | hm
  · exact hc
  · exact h kc hm

theorem trackStep_live (now : Nat) (st : TrackState) (p : SPred)
    (h : ∀ kc ∈ st.cands, 1 ≤ kc.2.frames) :
    ∀ kc ∈ (trackStep now st p).cands, 1 ≤ kc.2.frames := by
  rcases trackStep_shape now st p with
    ⟨k, c, c', hlook, _, hfr, hset⟩ | ⟨k, hlook, hset⟩
  · rw [hset]
    refine setKey_live h ?_
    have hc : 1 ≤ c.frames := by simpa using h (k, c) (lookupKey_mem hlook)
    rcases hfr with hfr | hfr <;> rw [hfr] <;> omega
  · rw [hset]
    exact setKey_live h (by norm_num)

theorem trackFold_live (now : Nat) (l : List SPred) :
    ∀ ts : TrackState, (∀ kc ∈ ts.cands, 1 ≤ kc.2.frames) →
      ∀ kc ∈ (l.foldl (trackStep now) ts).cands, 1 ≤ kc.2.frames := by
  induction l with
  | nil => intro ts h; exact h
  | cons p ps ih =>
    intro ts h
    exact ih _ (trackStep_live now ts p h)

theorem decayAll_live (nk : List Key) (m : TrackMap)
    (h : ∀ kc ∈ m, 1 ≤ kc.2.frames) :
    ∀ kc ∈ decayAll nk m, 1 ≤ kc.2.frames := by
  intro kc hkc
  simp only [decayAll, List.mem_filter, List.mem_map] at hkc
  obtain ⟨⟨kc₀, hkc₀, heq⟩, hcond⟩ := hkc
  by_cases hc : nk.contains kc₀.1 = true
  · rw [if_pos hc] at heq
    subst heq
    exact h kc₀ hkc₀
  · rw [if_neg hc] at heq
    subst heq
    simp only [Bool.or_eq_true, decide_eq_true_eq] at hcond
    rcases hcond with hmem | hpos
    · exact absurd hmem hc
    · show 1 ≤ kc₀.2.frames - DECAY_RATE
      omega

/-- C9: live-candidate streak invariant. If every candidate in the map
has streak ≥ 1 before a call, then after any completed `filter()` call
every candidate still has streak ≥ 1 (creation starts at 1, matching
increments, the class-lock path leaves it unchanged, and decay deletes
anything at 0 or below within the same call); `reset()` leaves an empty
map, for which the invariant holds vacuously. -/
theorem C9_live_streak (T : SizeTables) (now : Nat) (st : TrackMap)
    (raws : List RawPred) (vw vh : ℚ)
    (h : ∀ kc ∈ st, 1 ≤ kc.2.frames) :
    (∀ kc ∈ (filterCall T now st raws vw vh).1, 1 ≤ kc.2.frames) ∧
    (∀ kc ∈ reset st, 1 ≤ kc.2.frames) := by
  constructor
  · intro kc hkc
    have hfold := trackFold_live now (pipelineResolved T raws vw vh) ⟨st, [], []⟩ h
    exact decayAll_live _ _ hfold kc hkc
  · intro kc hkc
    simp [reset] at hkc

/-- Witness for C9 at a concrete state and frame. -/
theorem C9_live_streak_witness :
    (∀ kc ∈ stMix, 1 ≤ kc.2.frames) ∧
    (∀ kc ∈ (filterCall TTriv 3 stMix [rawCup, rawChair] 640 480).1, 1 ≤ kc.2.frames) := by
  refine ⟨by with_unfolding_all decide, ?_⟩
  exact (C9_live_streak TTriv 3 stMix [rawCup, rawChair] 640 480
    (by with_unfolding_all decide)).1

theorem trackStep_inv (now : Nat) (st : TrackMap) (ts : TrackState) (p : SPred)
    (hnd : (keysOf ts.cands).Nodup)
    (hmono : ∀ k, (lookupKey st k).isSome → (lookupKey ts.cands k).isSome)
    (hcls : ∀ k c₀ c, lookupKey st k = some c₀ → lookupKey ts.cands k = some c →
      c.cls = c₀.cls) :
    (keysOf (trackStep now ts p).cands).Nodup ∧
    (∀ k, (lookupKey st k).isSome → (lookupKey (trackStep now ts p).cands k).isSome) ∧
    (∀ k c₀ c, lookupKey st k = some c₀ → lookupKey (trackStep now ts p).cands k = some c →
      c.cls = c₀.cls) := by
  rcases trackStep_shape now ts p with
    ⟨k, c, c', hlook, hclseq, _, hset⟩ | ⟨k, hlook, hset⟩
  · rw [hset]
    refine ⟨?_, ?_, ?_⟩
    · rw [setKey_keys_present hlook]
      exact hnd
    · intro k' hk'
      by_cases hkk : k' = k
      · subst hkk
        rw [lookupKey_setKey_self]
        simp
      · rw [lookupKey_setKey_ne _ _ _ _ hkk]
        exact hmono k' hk'
    · intro k' c₀ cc h0 h1
      by_cases hkk : k' = k
      · subst hkk
        rw [lookupKey_setKey_self] at h1
        obtain rfl : c' = cc := by injection h1
        rw [hclseq]
        exact hcls k' c₀ c h0 hlook
      · rw [lookupKey_setKey_ne _ _ _ _ hkk] at h1
        exact hcls k' c₀ cc h0 h1
  · rw [hset]
    have hknotin : k ∉ keysOf ts.cands := (lookupKey_eq_none_iff ts.cands k).mp hlook
    refine ⟨?_, ?_, ?_⟩
    · rw [setKey_keys_absent hlook]
      rw [List.nodup_append]
      exact ⟨hnd, List.nodup_singleton k,
        fun a ha hak => hknotin ((List.mem_singleton.mp hak) ▸ ha)⟩
    · intro k' hk'
      by_cases hkk : k' = k
      · subst hkk
        rw [lookupKey_setKey_self]
        simp
      · rw [lookupKey_setKey_ne _ _ _ _ hkk]
        exact hmono k' hk'
    · intro k' c₀ cc h0 h1
      by_cases hkk : k' = k
      · subst hkk
        have := hmono k' (by simp [h0])
        rw [hlook] at this
        simp at this
      · rw [lookupKey_setKey_ne _ _ _ _ hkk] at h1
        exact hcls k' c₀ cc h0 h1

theorem trackFold_inv (now : Nat) (st : TrackMap) (l : List SPred) :
    ∀ ts : TrackState,
      (keysOf ts.cands).Nodup →
      (∀ k, (lookupKey st k).isSome → (lookupKey ts.cands k).isSome) →
      (∀ k c₀ c, lookupKey st k = some c₀ → lookupKey ts.cands k = some c →
        c.cls = c₀.cls) →
      (keysOf (l.foldl (trackStep now) ts).cands).Nodup ∧
      (∀ k c₀ c, lookupKey st k = some c₀ →
        lookupKey (l.foldl (trackStep now) ts).cands k = some c → c.cls = c₀.cls) := by
  induction l with
  | nil =>
    intro ts hnd _ hcls
    exact ⟨hnd, hcls⟩
  | cons p ps ih =>
    intro ts hnd hmono hcls
    obtain ⟨h1, h2, h3⟩ := trackStep_inv now st ts p hnd hmono hcls
    exact ih _ h1 h2 h3

theorem decayAll_cons (nk : List Key) (k₁ : Key) (c₁ : Cand) (rest : TrackMap) :
    decayAll nk ((k₁, c₁) :: rest) =
      (if nk.contains k₁ = true then (k₁, c₁) :: decayAll nk rest
       else if 0 < c₁.frames - DECAY_RATE then
         (k₁, ⟨c₁.cls, c₁.score, c₁.frames - DECAY_RATE, c₁.bbox⟩) :: decayAll nk rest
       else decayAll nk rest) := by
  by_cases hc : nk.contains k₁ = true
  · rw [if_pos hc]
    have hmem : k₁ ∈ nk := by simpa using hc
    simp [decayAll, hmem]
  · rw [if_neg hc]
    have hnmem : k₁ ∉ nk := by simpa using hc
    by_cases hf : (0 : ℤ) < c₁.frames - DECAY_RATE
    · rw [if_pos hf]
      simp [decayAll, hnmem, hf]
    · rw [if_neg hf]
      simp [decayAll, hnmem, hf]

theorem lookupKey_decayAll_cls (nk : List Key) (m : TrackMap) (k : Key) (c : Cand)
    (hnd : (keysOf m).Nodup)
    (h : lookupKey (decayAll nk m) k = some c) :
    ∃ c₁, lookupKey m k = some c₁ ∧ c.cls = c₁.cls := by
  induction m with
  | nil =>
    rw [show decayAll nk [] = [] from rfl] at h
    simp [lookupKey] at h
  | cons kc rest ih =>
    obtain ⟨k₁, c₁⟩ := kc
    simp only [keysOf, List.map_cons, List.nodup_cons] at hnd
    obtain ⟨hk₁, hnd'⟩ := hnd
    rw [decayAll_cons] at h
    by_cases hkk : k₁ = k
    · subst hkk
      have hnone : lookupKey (decayAll nk rest) k₁ = none := by
        rw [lookupKey_eq_none_iff]
        intro hmem
        exact hk₁ ((decayAll_keys_sublist nk rest).mem hmem)
      by_cases hc : nk.contains k₁ = true
      · rw [if_pos hc] at h
        simp only [lookupKey, if_pos rfl] at h ⊢
        exact ⟨c₁, rfl, by rw [← Option.some_inj.mp h]⟩
      · rw [if_neg hc] at h
        by_cases hf : (0 : ℤ) < c₁.frames - DECAY_RATE
        · rw [if_pos hf] at h
          simp only [lookupKey, if_pos rfl] at h ⊢
          exact ⟨c₁, rfl, by rw [← Option.some_inj.mp h]⟩
        · rw [if_neg hf, hnone] at h
          cases h
    · have hstep : lookupKey ((k₁, c₁) :: rest) k = lookupKey rest k := by
        simp [lookupKey, hkk]
      rw [hstep]
      by_cases hc : nk.contains k₁ = true
      · rw [if_pos hc] at h
        simp only [lookupKey, if_neg hkk] at h
        exact ih hnd' h
      · rw [if_neg hc] at h
        by_cases hf : (0 : ℤ) < c₁.frames - DECAY_RATE
        · rw [if_pos hf] at h
          simp only [lookupKey, if_neg hkk] at h
          exact ih hnd' h
        · rw [if_neg hf] at h
          exact ih hnd' h

/-- C10: class immutability of tracked identities. No path of `filter()`
mutates an existing candidate's `cls` field — the exact-match update and
the class-lock retention change only frames, score and bbox — so a key
present both before and after a call maps to the same class; `reset()`
removes everything. -/
theorem C10_class_immutable (T : SizeTables) (now : Nat) (st : TrackMap)
    (raws : List RawPred) (vw vh : ℚ) (k : Key) (c c' : Cand)
    (hnd : (keysOf st).Nodup)
    (hbefore : lookupKey st k = some c)
    (hafter : lookupKey (filterCall T now st raws vw vh).1 k = some c') :
    c'.cls = c.cls := by
  have hfold := trackFold_inv now st (pipelineResolved T raws vw vh) ⟨st, [], []⟩
    hnd (fun _ h => h) (fun _ _ _ h0 h1 => by rw [h0] at h1; injection h1 with h2; rw [h2])
  obtain ⟨hndf, hclsf⟩ := hfold
  obtain ⟨c₁, hc₁, hcls₁⟩ := lookupKey_decayAll_cls _ _ k c' hndf hafter
  rw [hcls₁]
  exact hclsf k c c₁ hbefore hc₁

/-- Witness for C10 at a concrete state and frame: the locked "bowl"
candidate keeps class "bowl" through the class-lock update. -/
theorem C10_class_immutable_witness :
    (keysOf stMix).Nodup ∧
    lookupKey stMix kBowl = some ⟨"bowl", 9/10, 12, ⟨20, 0, 40, 40⟩⟩ ∧
    lookupKey (filterCall TTriv 3 stMix [rawCup, rawChair] 640 480).1 kBowl =
      some ⟨"bowl", 81/100, 12, ⟨20, 0, 40, 40⟩⟩ ∧
    (⟨"bowl", 81/100, 12, ⟨20, 0, 40, 40⟩⟩ : Cand).cls =
      (⟨"bowl", 9/10, 12, ⟨20, 0, 40, 40⟩⟩ : Cand).cls := by
  refine ⟨by with_unfolding_all decide, by with_unfolding_all decide,
    by with_unfolding_all decide, ?_⟩
  exact C10_class_immutable TTriv 3 stMix [rawCup, rawChair] 640 480 kBowl
    ⟨"bowl", 9/10, 12, ⟨20, 0, 40, 40⟩⟩ ⟨"bowl", 81/100, 12, ⟨20, 0, 40, 40⟩⟩
    (by with_unfolding_all decide) (by with_unfolding_all decide)
    (by with_unfolding_all decide)
